import Mathlib

/-!
Verification of the branch-tree reconciliation engine of the chat-branches
extension (sources: src/StorageRebuilder.js, src/ChatTreeView.js, and the
ChatMigrator module).

The JavaScript sources are embedded shallowly:
* JS arrays become `List`, JS `Map` becomes an association list with
  last-insertion-wins lookup (`mapGet`) or first-position-preserving update,
  and JS `Set` becomes a `List` used only through membership.
* Nullable values become `Option`; JS truthiness on strings is modelled
  explicitly (the empty string is falsy).
* Asynchronous collaborator calls (fetch, plugin registration, timers) carry
  no data dependencies relevant to the verified properties; loops around them
  are embedded as pure folds, and timer pauses are recorded as events.
* The recursive depth-first visit of `sortBranchesForRegistration` is embedded
  with an explicit fuel argument; fuel `branches.length + 1` strictly bounds
  the recursion depth because the in-progress set grows at every nested call
  (the lemmas below only ever use the fuel through that bound).
-/

/-- Record collected by `StorageRebuilder.rebuildStorageFromChats` for one
chat and passed to validation, sorting, and registration
(StorageRebuilder.js lines 313-321). -/
structure BranchData where
  uuid : String
  parent_uuid : Option String
  root_uuid : String
  character_id : String
  chat_name : String
  branch_point : Option Nat
  created_at : Nat
deriving DecidableEq, Repr

/-- Membership test of a JS `Map` keyed by strings (`uuidToChatName.has`),
for a map modelled as an association list. -/
def containsKeyS (m : List (String × String)) (k : String) : Bool :=
  m.any (fun e => e.1 == k)

/-- One iteration of the loop of `StorageRebuilder.validateAndFixBranches`
(lines 459-473): a branch whose `parent_uuid` is truthy and not a key of
`uuidToChatName` is copied with `parent_uuid` set to null and one
diagnostic `(old parent, chat name)` is emitted; every other branch is kept
as is.  The accumulator pairs the `validated` list with the diagnostic list
(whose length is the source's `orphanedCount`). -/
def vafStep (m : List (String × String)) (acc : List BranchData × List (String × String))
    (b : BranchData) : List BranchData × List (String × String) :=
  match b.parent_uuid with
  | some p =>
    if (p != "") && !(containsKeyS m p) then
      (acc.1 ++ [{ b with parent_uuid := none }], acc.2 ++ [(p, b.chat_name)])
    else
      (acc.1 ++ [b], acc.2)
  | none => (acc.1 ++ [b], acc.2)

/-- `StorageRebuilder.validateAndFixBranches(branches, uuidToChatName)`
(lines 455-480): returns the validated list and the emitted orphan
diagnostics, in input order. -/
def validateAndFixBranches (branches : List BranchData) (m : List (String × String)) :
    List BranchData × List (String × String) :=
  branches.foldl (vafStep m) ([], [])

/-- Spec-side orphan test, following the claim's words: the record's
`parent_uuid` is non-null and absent from the known universe. -/
def specIsOrphan (m : List (String × String)) (b : BranchData) : Bool :=
  match b.parent_uuid with
  | some p => !(containsKeyS m p)
  | none => false

/-- Spec-side repair, following the claim's words: an orphaned record gets
`parent_uuid = null`, every other record is returned unchanged. -/
def specFixOrphan (m : List (String × String)) (b : BranchData) : BranchData :=
  if specIsOrphan m b then { b with parent_uuid := none } else b

lemma vaf_go (m : List (String × String)) (branches : List BranchData)
    (h : ∀ b ∈ branches, b.parent_uuid ≠ some "") (acc : List BranchData × List (String × String)) :
    branches.foldl (vafStep m) acc =
      (acc.1 ++ branches.map (specFixOrphan m),
       acc.2 ++ (branches.filter (specIsOrphan m)).map (fun b => (b.parent_uuid.getD "", b.chat_name))) := by
  induction branches generalizing acc with
  | nil => simp
  | cons b bs ih =>
    have hb : b.parent_uuid ≠ some "" := h b (List.mem_cons_self b bs)
    have hbs : ∀ x ∈ bs, x.parent_uuid ≠ some "" := fun x hx => h x (List.mem_cons_of_mem b hx)
    rw [List.foldl_cons, ih hbs]
    rcases hp : b.parent_uuid with _ | p
    · simp [vafStep, specFixOrphan, specIsOrphan, hp]
    · have hpne : p ≠ "" := by
        intro hcon
        exact hb (by rw [hp, hcon])
      by_cases hck : containsKeyS m p = true
      · simp [vafStep, specFixOrphan, specIsOrphan, hp, hck, hpne]
      · simp only [Bool.not_eq_true] at hck
        simp [vafStep, specFixOrphan, specIsOrphan, hp, hck, hpne, Option.getD]

/-- Claim C3: for every list of branch records and known-universe map,
`validateAndFixBranches` returns a list of the same length and order in
which exactly the records whose non-null `parent_uuid` is absent from the
universe have `parent_uuid` nulled (all other fields unchanged, all other
records unchanged), and it emits exactly one diagnostic, carrying the old
parent and the chat name, per orphaned record.  The embedding is a total
pure function of the passed-in batch data, so it performs no I/O and never
throws.  The hypothesis that no record carries the empty string as its
parent reflects the data model (`parent_uuid` is an identifier or null; the
collection pass normalises falsy values to null at line 298). -/
theorem validateAndFixBranches_spec (branches : List BranchData) (m : List (String × String))
    (h : ∀ b ∈ branches, b.parent_uuid ≠ some "") :
    (validateAndFixBranches branches m).1 = branches.map (specFixOrphan m) ∧
    (validateAndFixBranches branches m).2 =
      (branches.filter (specIsOrphan m)).map (fun b => (b.parent_uuid.getD "", b.chat_name)) ∧
    (validateAndFixBranches branches m).2.length = (branches.filter (specIsOrphan m)).length ∧
    (validateAndFixBranches branches m).1.length = branches.length := by
  have hgo := vaf_go m branches h ([], [])
  unfold validateAndFixBranches
  rw [hgo]
  simp

/-- Witness for `validateAndFixBranches_spec`: a concrete batch with one
resolvable parent, one orphan, and one root. -/
theorem validateAndFixBranches_spec_witness :
    (∀ b ∈ ([⟨"A", none, "A", "c", "rootA", none, 1⟩,
             ⟨"B", some "A", "A", "c", "childB", none, 2⟩,
             ⟨"C", some "Z", "C", "c", "orphanC", none, 3⟩] : List BranchData),
      b.parent_uuid ≠ some "") ∧
    (validateAndFixBranches
      [⟨"A", none, "A", "c", "rootA", none, 1⟩,
       ⟨"B", some "A", "A", "c", "childB", none, 2⟩,
       ⟨"C", some "Z", "C", "c", "orphanC", none, 3⟩]
      [("A", "rootA"), ("B", "childB"), ("C", "orphanC")]).1 =
      [⟨"A", none, "A", "c", "rootA", none, 1⟩,
       ⟨"B", some "A", "A", "c", "childB", none, 2⟩,
       ⟨"C", none, "C", "c", "orphanC", none, 3⟩] := by
  constructor
  · decide
  · exact ((validateAndFixBranches_spec _ _ (by decide)).1).trans (by decide)

/-- Fixed chunk size of the bulk loops (`const BATCH_SIZE = 50` in both
`StorageRebuilder.rebuildStorageFromChats` and
`ChatMigrator.migrateAllChats`). -/
def BATCH_SIZE : Nat := 50

/-- Fixed inter-chunk pause in milliseconds (`setTimeout(resolve, 500)`). -/
def PAUSE_MS : Nat := 500

/-- Number of chunks: `Math.ceil(n / BATCH_SIZE)` for a list of `n`
records. -/
def totalBatches (n : Nat) : Nat := (n + BATCH_SIZE - 1) / BATCH_SIZE

/-- Start index of chunk `b` (`startIdx = batchIndex * BATCH_SIZE`). -/
def batchStart (b : Nat) : Nat := b * BATCH_SIZE

/-- End index of chunk `b`
(`endIdx = Math.min(startIdx + BATCH_SIZE, length)`). -/
def batchEnd (n b : Nat) : Nat := min (batchStart b + BATCH_SIZE) n

/-- Sizes of the slices `sortedBranches.slice(startIdx, endIdx)` processed by
the chunk loop, in order. -/
def chunkSizes (n : Nat) : List Nat :=
  (List.range (totalBatches n)).map (fun b => batchEnd n b - batchStart b)

/-- Pauses taken by the chunk loop: after chunk `b` the loop sleeps
`PAUSE_MS` exactly when `batchIndex < totalBatches - 1`. -/
def pauseDelays (n : Nat) : List Nat :=
  (List.range (totalBatches n)).flatMap
    (fun b => if b + 1 < totalBatches n then [PAUSE_MS] else [])

/-- Completed counts reported while processing the items of one chunk: for
item `i` the loop reports `globalIndex` before and `globalIndex + 1` after
registering. -/
def itemEvents (s k : Nat) : List Nat :=
  (List.range k).flatMap (fun i => [s + i, s + i + 1])

/-- Completed counts reported during chunk `b`: `startIdx` when the chunk
begins, the per-item reports, and `endIdx` with the pause message when a
pause follows. -/
def batchEvents (n b : Nat) : List Nat :=
  batchStart b ::
    (itemEvents (batchStart b) (batchEnd n b - batchStart b)
      ++ (if b + 1 < totalBatches n then [batchEnd n b] else []))

/-- All completed counts reported by the chunked registration loop over `n`
records, starting with the report issued just before the loop. -/
def progressCounts (n : Nat) : List Nat :=
  0 :: (List.range (totalBatches n)).flatMap (batchEvents n)

lemma totalBatches_pos {n : Nat} (h : 0 < n) : 0 < totalBatches n := by
  unfold totalBatches BATCH_SIZE
  omega

lemma range_flatMap_pause (m t c : Nat) (h : m < t) :
    (List.range m).flatMap (fun b => if b + 1 < t then [c] else []) = List.replicate m c := by
  induction m with
  | zero => simp
  | succ k ih =>
    have hk : k + 1 < t := h
    rw [List.range_succ, List.flatMap_append, ih (by omega), List.replicate_succ' k c]
    simp [hk]

lemma itemEvents_chain (s : Nat) :
    ∀ k, List.Chain' (fun a b => a ≤ b) (s :: itemEvents s k) ∧
      (s :: itemEvents s k).getLast? = some (s + k) := by
  intro k
  induction k with
  | zero => simp [itemEvents]
  | succ k ih =>
    have hext : itemEvents s (k + 1) = itemEvents s k ++ [s + k, s + k + 1] := by
      unfold itemEvents
      rw [List.range_succ, List.flatMap_append]
      simp
    have hcons : s :: itemEvents s (k + 1) = (s :: itemEvents s k) ++ [s + k, s + k + 1] := by
      rw [hext]
      simp
    constructor
    · rw [hcons]
      refine List.Chain'.append ih.1 (by simp) ?_
      intro x hx y hy
      rw [ih.2] at hx
      simp at hx hy
      omega
    · rw [hcons, show (s :: itemEvents s k) ++ [s + k, s + k + 1] =
          ((s :: itemEvents s k) ++ [s + k]) ++ [s + k + 1] by simp]
      rw [List.getLast?_concat]
      rfl

lemma batchEvents_chain (n b : Nat) (hb : b < totalBatches n) :
    List.Chain' (fun a c => a ≤ c) (batchEvents n b) := by
  have hse : batchStart b ≤ batchEnd n b := by
    simp only [batchStart, batchEnd, BATCH_SIZE, totalBatches] at hb ⊢
    omega
  have hitem := itemEvents_chain (batchStart b) (batchEnd n b - batchStart b)
  unfold batchEvents
  rw [show batchStart b ::
        (itemEvents (batchStart b) (batchEnd n b - batchStart b)
          ++ (if b + 1 < totalBatches n then [batchEnd n b] else [])) =
      (batchStart b :: itemEvents (batchStart b) (batchEnd n b - batchStart b))
        ++ (if b + 1 < totalBatches n then [batchEnd n b] else []) by simp]
  refine List.Chain'.append hitem.1 (by split <;> simp) ?_
  intro x hx y hy
  rw [hitem.2] at hx
  simp at hx
  subst hx
  split at hy <;> simp at hy
  simp only [batchStart, batchEnd, BATCH_SIZE, totalBatches] at hb hy ⊢
  omega

lemma batchEvents_bounds (n b : Nat) (hb : b < totalBatches n) :
    ∀ x ∈ batchEvents n b, batchStart b ≤ x ∧ x ≤ batchStart b + BATCH_SIZE := by
  intro x hx
  simp only [batchEvents, itemEvents, batchStart, batchEnd, BATCH_SIZE, totalBatches] at hb hx ⊢
  simp only [List.mem_cons, List.mem_append] at hx
  rcases hx with hx | hx | hx
  · omega
  · rw [List.mem_flatMap] at hx
    obtain ⟨i, hi, hxi⟩ := hx
    rw [List.mem_range] at hi
    simp at hxi
    omega
  · split at hx <;> simp at hx
    omega

lemma chain_le_flatMap (f : Nat → List Nat) (lo hi : Nat → Nat) :
    ∀ l : List Nat,
      (∀ b ∈ l, List.Chain' (fun a c => a ≤ c) (f b)) →
      (∀ b ∈ l, ∀ x ∈ f b, lo b ≤ x ∧ x ≤ hi b) →
      List.Pairwise (fun a b => hi a ≤ lo b) l →
      List.Chain' (fun a c => a ≤ c) (l.flatMap f)
  | [], _, _, _ => by simp
  | a :: l, hch, hbd, hpw => by
    rw [List.flatMap_cons]
    refine List.Chain'.append (hch a (by simp))
      (chain_le_flatMap f lo hi l (fun b hb => hch b (by simp [hb]))
        (fun b hb => hbd b (by simp [hb])) (List.Pairwise.sublist (by simp) hpw)) ?_
    intro x hx y hy
    have hxa : x ∈ f a := List.mem_of_mem_getLast? hx
    have hyl : y ∈ l.flatMap f := List.mem_of_mem_head? hy
    rw [List.mem_flatMap] at hyl
    obtain ⟨b, hbl, hyb⟩ := hyl
    have h1 : x ≤ hi a := (hbd a (by simp) x hxa).2
    have h2 : lo b ≤ y := (hbd b (by simp [hbl]) y hyb).1
    have h3 : hi a ≤ lo b := (List.pairwise_cons.1 hpw).1 b hbl
    omega

lemma chunkSizes_eq (n : Nat) (h : 0 < n) :
    chunkSizes n = List.replicate (totalBatches n - 1) BATCH_SIZE
      ++ [if n % 50 = 0 then 50 else n % 50] := by
  obtain ⟨m, hm⟩ : ∃ m, totalBatches n = m + 1 :=
    ⟨totalBatches n - 1, by have := totalBatches_pos h; omega⟩
  rw [chunkSizes, hm, List.range_succ, List.map_append, List.map_singleton]
  have h1 : (List.range m).map (fun b => batchEnd n b - batchStart b) =
      List.replicate m BATCH_SIZE := by
    rw [List.eq_replicate_iff]
    refine ⟨by simp, ?_⟩
    intro x hx
    rw [List.mem_map] at hx
    obtain ⟨b, hbm, hfx⟩ := hx
    rw [List.mem_range] at hbm
    have hb1 : b + 1 < totalBatches n := by omega
    rw [← hfx]
    simp only [batchEnd, batchStart, BATCH_SIZE, totalBatches] at hb1 ⊢
    omega
  have h2 : batchEnd n m - batchStart m = if n % 50 = 0 then 50 else n % 50 := by
    simp only [batchEnd, batchStart, BATCH_SIZE, totalBatches] at hm ⊢
    split <;> omega
  simp only [Nat.add_sub_cancel]
  rw [h1, h2]

lemma chunkSizes_sum (n : Nat) (h : 0 < n) : (chunkSizes n).sum = n := by
  rw [chunkSizes_eq n h]
  rw [List.sum_append, List.sum_replicate]
  simp only [smul_eq_mul, List.sum_cons, List.sum_nil]
  have hm := totalBatches_pos h
  simp only [BATCH_SIZE, totalBatches] at hm ⊢
  split <;> omega

lemma pauseDelays_eq (n : Nat) (h : 0 < n) :
    pauseDelays n = List.replicate (totalBatches n - 1) PAUSE_MS := by
  obtain ⟨m, hm⟩ : ∃ m, totalBatches n = m + 1 :=
    ⟨totalBatches n - 1, by have := totalBatches_pos h; omega⟩
  rw [pauseDelays, hm, List.range_succ, List.flatMap_append,
    range_flatMap_pause m (m + 1) PAUSE_MS (by omega)]
  simp [show m = totalBatches n - 1 by omega]

lemma progressCounts_chain (n : Nat) :
    List.Chain' (fun a b => a ≤ b) (progressCounts n) := by
  unfold progressCounts
  rw [List.chain'_cons']
  refine ⟨fun y _ => Nat.zero_le y, ?_⟩
  refine chain_le_flatMap (batchEvents n) (fun b => batchStart b)
    (fun b => batchStart b + BATCH_SIZE) (List.range (totalBatches n)) ?_ ?_ ?_
  · intro b hb
    exact batchEvents_chain n b (List.mem_range.1 hb)
  · intro b hb
    exact batchEvents_bounds n b (List.mem_range.1 hb)
  · refine (List.pairwise_lt_range (totalBatches n)).imp ?_
    intro a b hab
    simp only [batchStart, BATCH_SIZE]
    omega

lemma progressCounts_getLast (n : Nat) (h : 0 < n) :
    (progressCounts n).getLast? = some n := by
  obtain ⟨m, hm⟩ : ∃ m, totalBatches n = m + 1 :=
    ⟨totalBatches n - 1, by have := totalBatches_pos h; omega⟩
  have hbe : batchEvents n m =
      batchStart m :: itemEvents (batchStart m) (batchEnd n m - batchStart m) := by
    unfold batchEvents
    rw [hm]
    simp
  have hlast := (itemEvents_chain (batchStart m) (batchEnd n m - batchStart m)).2
  have hval : batchStart m + (batchEnd n m - batchStart m) = n := by
    simp only [batchStart, batchEnd, BATCH_SIZE, totalBatches] at hm ⊢
    omega
  have hne : [m].flatMap (batchEvents n) ≠ [] := by
    simp [hbe]
  unfold progressCounts
  rw [hm, List.range_succ, List.flatMap_append]
  rw [show (0 : Nat) :: ((List.range m).flatMap (batchEvents n) ++ [m].flatMap (batchEvents n)) =
      ((0 : Nat) :: (List.range m).flatMap (batchEvents n)) ++ [m].flatMap (batchEvents n) by simp]
  rw [List.getLast?_append_of_ne_nil _ hne]
  simp only [List.flatMap_cons, List.flatMap_nil, List.append_nil]
  rw [hbe, hlast, hval]

/-- Claim C7: the batch driver over `n` records processes exactly
`ceil(n / 50)` chunks, all of size 50 except a final chunk of size
`n mod 50` when that is non-zero, pauses 500 ms after every chunk except the
last (so `ceil(n / 50) - 1` pauses), and reports completed counts that are
monotonically non-decreasing and reach `n`; in particular 120 records yield
chunks of sizes 50, 50, 20 with two pauses.  The model follows the chunk
loop of `StorageRebuilder.rebuildStorageFromChats` (lines 349-386), which
`ChatMigrator.migrateAllChats` (lines 196-296) repeats verbatim. -/
theorem rebuildBatching_spec (n : Nat) (h : 0 < n) :
    totalBatches n = (n + 49) / 50 ∧
    chunkSizes n = List.replicate (totalBatches n - 1) BATCH_SIZE
      ++ [if n % 50 = 0 then 50 else n % 50] ∧
    (chunkSizes n).sum = n ∧
    pauseDelays n = List.replicate (totalBatches n - 1) PAUSE_MS ∧
    List.Chain' (fun a b => a ≤ b) (progressCounts n) ∧
    (progressCounts n).getLast? = some n ∧
    chunkSizes 120 = [50, 50, 20] ∧
    pauseDelays 120 = [500, 500] := by
  refine ⟨by simp only [totalBatches, BATCH_SIZE]; omega, chunkSizes_eq n h, chunkSizes_sum n h,
    pauseDelays_eq n h, progressCounts_chain n, progressCounts_getLast n h, by decide, by decide⟩

/-- Witness for `rebuildBatching_spec` at the 120-record scenario from the
specification. -/
theorem rebuildBatching_spec_witness :
    0 < 120 ∧ (progressCounts 120).getLast? = some 120 :=
  ⟨by decide, (rebuildBatching_spec 120 (by decide)).2.2.2.2.2.1⟩

/-- Lookup in the JS `Map` built by
`new Map(branches.map(b => [b.uuid, b]))` in
`StorageRebuilder.sortBranchesForRegistration` (line 403): entries are
inserted left to right and a later entry with the same key overwrites an
earlier one, so `get` returns the value of the last entry carrying the
key. -/
def mapGet (bm : List BranchData) (u : String) : Option BranchData :=
  bm.foldl (fun acc b => if b.uuid == u then some b else acc) none

/-- State threaded through the depth-first `visit` of
`sortBranchesForRegistration`: the `visited` set (as a list with newest
first), the `sorted` output array, and the two kinds of `console.warn`
diagnostics (circular dependency, branch not found). -/
structure SortSt where
  visited : List String
  sorted : List BranchData
  cycWarns : List String
  missWarns : List String
deriving DecidableEq, Repr

/-- The recursive `visit` closure of
`StorageRebuilder.sortBranchesForRegistration` (lines 411-438), with the
in-progress set `temp` passed down explicitly (a completed call leaves
`temp` as it found it, which the functional embedding makes automatic) and
an explicit fuel bounding the recursion depth.  Every nested call enlarges
`temp` by a uuid of the map, so depth never exceeds the number of distinct
uuids plus one and the fuel used below never reaches zero. -/
def visit (bm : List BranchData) : Nat → List String → SortSt → String → SortSt
  | 0, _, st, _ => st
  | fuel + 1, temp, st, uuid =>
    if st.visited.contains uuid then st
    else if temp.contains uuid then { st with cycWarns := st.cycWarns ++ [uuid] }
    else
      match mapGet bm uuid with
      | none => { st with missWarns := st.missWarns ++ [uuid] }
      | some branch =>
        let st1 :=
          match branch.parent_uuid with
          | some p => if p = "" then st else visit bm fuel (uuid :: temp) st p
          | none => st
        { st1 with visited := uuid :: st1.visited, sorted := st1.sorted ++ [branch] }

/-- `StorageRebuilder.sortBranchesForRegistration(branches)` (lines
401-446): visit every branch in input order starting from an empty state;
the `sorted` field of the result is the returned array. -/
def sortBranchesForRegistration (branches : List BranchData) : SortSt :=
  branches.foldl (fun st b => visit branches (branches.length + 1) [] st b.uuid)
    ⟨[], [], [], []⟩

/-- The parent edge induced by the branch map: `u` points to `v` when the
map resolves `u` to a branch whose `parent_uuid` is the truthy string `v`
(exactly the condition under which `visit u` recurses into `v`). -/
def parentEdgeB (bm : List BranchData) (u v : String) : Bool :=
  match mapGet bm u with
  | some b => b.parent_uuid == some v && v != ""
  | none => false

/-- Propositional form of `parentEdgeB`. -/
def ParentEdge (bm : List BranchData) (u v : String) : Prop :=
  parentEdgeB bm u v = true

instance (bm : List BranchData) (u v : String) : Decidable (ParentEdge bm u v) :=
  inferInstanceAs (Decidable (parentEdgeB bm u v = true))

/-- The set of uuids of the branch list. -/
def branchKeys (bm : List BranchData) : Finset String :=
  (bm.map (fun b => b.uuid)).toFinset

lemma mapGet_go (u : String) :
    ∀ (bm : List BranchData) (acc : Option BranchData),
      bm.foldl (fun a b => if b.uuid == u then some b else a) acc =
        (bm.reverse.find? (fun b => b.uuid == u)).elim acc some
  | [], acc => by simp
  | b :: bm, acc => by
    rw [List.foldl_cons, mapGet_go u bm, List.reverse_cons, List.find?_append]
    cases hf : bm.reverse.find? (fun b => b.uuid == u) with
    | some x => simp [hf]
    | none =>
      by_cases hbu : (b.uuid == u) = true
      · simp [hf, List.find?, hbu]
      · simp only [Bool.not_eq_true] at hbu
        simp [hf, List.find?, hbu]

lemma mapGet_mem {bm : List BranchData} {u : String} {b : BranchData}
    (h : mapGet bm u = some b) : b ∈ bm ∧ b.uuid = u := by
  unfold mapGet at h
  rw [mapGet_go] at h
  cases hf : bm.reverse.find? (fun b => b.uuid == u) with
  | none => rw [hf] at h; simp at h
  | some x =>
    rw [hf] at h
    simp at h
    subst h
    exact ⟨List.mem_reverse.1 (List.mem_of_find?_eq_some hf),
      by have := List.find?_some hf; simpa using this⟩

lemma mapGet_isSome_of_mem {bm : List BranchData} {b : BranchData} (h : b ∈ bm) :
    (mapGet bm b.uuid).isSome := by
  unfold mapGet
  rw [mapGet_go]
  cases hf : bm.reverse.find? (fun c => c.uuid == b.uuid) with
  | some x => simp
  | none =>
    exfalso
    have : (bm.reverse.find? (fun c => c.uuid == b.uuid)).isSome := by
      rw [List.find?_isSome]
      exact ⟨b, List.mem_reverse.2 h, by simp⟩
    rw [hf] at this
    simp at this

lemma mapGet_of_nodup {bm : List BranchData}
    (hnd : (bm.map (fun b => b.uuid)).Nodup) {b : BranchData} (h : b ∈ bm) :
    mapGet bm b.uuid = some b := by
  have hs := mapGet_isSome_of_mem h
  obtain ⟨c, hc⟩ := Option.isSome_iff_exists.1 hs
  obtain ⟨hcm, hcu⟩ := mapGet_mem hc
  have : c = b := List.inj_on_of_nodup_map hnd hcm h hcu
  rw [hc, this]

lemma mem_branchKeys_of_mapGet {bm : List BranchData} {u : String}
    (h : (mapGet bm u).isSome) : u ∈ branchKeys bm := by
  obtain ⟨b, hb⟩ := Option.isSome_iff_exists.1 h
  obtain ⟨hm, hu⟩ := mapGet_mem hb
  unfold branchKeys
  rw [List.mem_toFinset, List.mem_map]
  exact ⟨b, hm, hu⟩

lemma parentEdge_isSome {bm : List BranchData} {u v : String} (h : ParentEdge bm u v) :
    (mapGet bm u).isSome := by
  unfold ParentEdge parentEdgeB at h
  cases hg : mapGet bm u with
  | none => rw [hg] at h; simp at h
  | some b => simp

lemma parentEdge_elim {bm : List BranchData} {u v : String} (h : ParentEdge bm u v) :
    ∃ b, mapGet bm u = some b ∧ b.parent_uuid = some v ∧ v ≠ "" := by
  unfold ParentEdge parentEdgeB at h
  cases hg : mapGet bm u with
  | none => rw [hg] at h; simp at h
  | some b =>
    rw [hg] at h
    simp only [Bool.and_eq_true, beq_iff_eq, bne_iff_ne, ne_eq] at h
    exact ⟨b, rfl, h.1, h.2⟩

lemma sdiff_insert_card_lt {s t : Finset String} {u : String} (hu : u ∈ s) (hnt : u ∉ t) :
    (s \ insert u t).card < (s \ t).card := by
  have h1 : s \ insert u t = (s \ t).erase u := by
    ext x
    simp only [Finset.mem_sdiff, Finset.mem_erase, Finset.mem_insert]
    tauto
  rw [h1]
  exact Finset.card_erase_lt_of_mem (Finset.mem_sdiff.2 ⟨hu, hnt⟩)

lemma visit_shape (bm : List BranchData) :
    ∀ (fuel : Nat) (temp : List String) (st : SortSt) (u : String),
      ∃ newly : List BranchData,
        (visit bm fuel temp st u).sorted = st.sorted ++ newly ∧
        (visit bm fuel temp st u).visited = (newly.map (fun b => b.uuid)).reverse ++ st.visited ∧
        (∀ b ∈ newly, mapGet bm b.uuid = some b) ∧
        (∀ b ∈ newly, b.uuid ∉ temp ∧ b.uuid ∉ st.visited) ∧
        (newly.map (fun b => b.uuid)).Nodup ∧
        (∃ cw, (visit bm fuel temp st u).cycWarns = st.cycWarns ++ cw) ∧
        (∃ mw, (visit bm fuel temp st u).missWarns = st.missWarns ++ mw) := by
  intro fuel
  induction fuel with
  | zero =>
    intro temp st u
    exact ⟨[], by simp [visit], by simp [visit], by simp, by simp, by simp,
      ⟨[], by simp [visit]⟩, ⟨[], by simp [visit]⟩⟩
  | succ fuel ih =>
    intro temp st u
    by_cases h1 : u ∈ st.visited
    · have hres : visit bm (fuel + 1) temp st u = st := by
        simp [visit, h1]
      exact ⟨[], by rw [hres]; simp, by rw [hres]; simp, by simp, by simp, by simp,
        ⟨[], by rw [hres]; simp⟩, ⟨[], by rw [hres]; simp⟩⟩
    · by_cases h2 : u ∈ temp
      · have hres : visit bm (fuel + 1) temp st u = { st with cycWarns := st.cycWarns ++ [u] } := by
          simp [visit, h1, h2]
        exact ⟨[], by rw [hres]; simp, by rw [hres]; simp, by simp, by simp, by simp,
          ⟨[u], by rw [hres]⟩, ⟨[], by rw [hres]; simp⟩⟩
      · have hunotv : u ∉ st.visited := h1
        have hunott : u ∉ temp := h2
        cases hg : mapGet bm u with
        | none =>
          have hres : visit bm (fuel + 1) temp st u =
              { st with missWarns := st.missWarns ++ [u] } := by
            simp [visit, h1, h2, hg]
          exact ⟨[], by rw [hres]; simp, by rw [hres]; simp, by simp, by simp, by simp,
            ⟨[], by rw [hres]; simp⟩, ⟨[u], by rw [hres]⟩⟩
        | some branch =>
          obtain ⟨hmem, huuid⟩ := mapGet_mem hg
          rcases hpar : branch.parent_uuid with _ | p
          · have hres : visit bm (fuel + 1) temp st u =
                { st with visited := u :: st.visited, sorted := st.sorted ++ [branch] } := by
              simp [visit, h1, h2, hg, hpar]
            refine ⟨[branch], by rw [hres], by rw [hres]; simp [huuid], ?_, ?_, by simp,
              ⟨[], by rw [hres]; simp⟩, ⟨[], by rw [hres]; simp⟩⟩
            · intro b hb
              simp at hb
              subst hb
              rw [huuid]
              exact hg
            · intro b hb
              simp at hb
              subst hb
              rw [huuid]
              exact ⟨hunott, hunotv⟩
          · by_cases hpe : p = ""
            · have hres : visit bm (fuel + 1) temp st u =
                  { st with visited := u :: st.visited, sorted := st.sorted ++ [branch] } := by
                simp [visit, h1, h2, hg, hpar, hpe]
              refine ⟨[branch], by rw [hres], by rw [hres]; simp [huuid], ?_, ?_, by simp,
                ⟨[], by rw [hres]; simp⟩, ⟨[], by rw [hres]; simp⟩⟩
              · intro b hb
                simp at hb
                subst hb
                rw [huuid]
                exact hg
              · intro b hb
                simp at hb
                subst hb
                rw [huuid]
                exact ⟨hunott, hunotv⟩
            · have hres : visit bm (fuel + 1) temp st u =
                  { visit bm fuel (u :: temp) st p with
                    visited := u :: (visit bm fuel (u :: temp) st p).visited,
                    sorted := (visit bm fuel (u :: temp) st p).sorted ++ [branch] } := by
                simp [visit, h1, h2, hg, hpar, hpe]
              obtain ⟨n1, hs1, hv1, hm1, ht1, hn1, ⟨cw1, hc1⟩, ⟨mw1, hw1⟩⟩ := ih (u :: temp) st p
              have hu_not : u ∉ n1.map (fun b => b.uuid) := by
                intro hcon
                rw [List.mem_map] at hcon
                obtain ⟨b, hbmem, hbu⟩ := hcon
                exact (ht1 b hbmem).1 (hbu ▸ List.mem_cons_self u temp)
              refine ⟨n1 ++ [branch], ?_, ?_, ?_, ?_, ?_, ⟨cw1, ?_⟩, ⟨mw1, ?_⟩⟩
              · rw [hres]
                show (visit bm fuel (u :: temp) st p).sorted ++ [branch] = _
                rw [hs1, List.append_assoc]
              · rw [hres]
                show u :: (visit bm fuel (u :: temp) st p).visited = _
                rw [hv1]
                simp [huuid]
              · intro b hb
                rcases List.mem_append.1 hb with hb | hb
                · exact hm1 b hb
                · simp at hb
                  subst hb
                  rw [huuid]
                  exact hg
              · intro b hb
                rcases List.mem_append.1 hb with hb | hb
                · exact ⟨fun hmem2 => (ht1 b hb).1 (List.mem_cons_of_mem u hmem2), (ht1 b hb).2⟩
                · simp at hb
                  subst hb
                  rw [huuid]
                  exact ⟨hunott, hunotv⟩
              · rw [List.map_append, List.map_singleton, huuid]
                refine List.Nodup.append hn1 (List.nodup_singleton u) ?_
                intro a ha hb
                simp at hb
                subst hb
                exact hu_not ha
              · rw [hres]
                show (visit bm fuel (u :: temp) st p).cycWarns = _
                exact hc1
              · rw [hres]
                show (visit bm fuel (u :: temp) st p).missWarns = _
                exact hw1

/-- Ordering invariant over an emitted list and the circular-dependency
diagnostics: every emitted entry whose `parent_uuid` is a truthy,
map-resolvable uuid either has an entry carrying that uuid strictly earlier
or the uuid has received a circular-dependency diagnostic. -/
def OPl (bm : List BranchData) (sorted : List BranchData) (cyc : List String) : Prop :=
  ∀ i (hi : i < sorted.length) p,
    (sorted.get ⟨i, hi⟩).parent_uuid = some p → p ≠ "" → (mapGet bm p).isSome →
    (∃ j, ∃ hj : j < sorted.length, j < i ∧ (sorted.get ⟨j, hj⟩).uuid = p) ∨ p ∈ cyc

/-- Ordering invariant of a sort state. -/
def OP (bm : List BranchData) (st : SortSt) : Prop :=
  OPl bm st.sorted st.cycWarns

/-- The visited set and the uuids of the emitted entries coincide. -/
def VLink (st : SortSt) : Prop :=
  ∀ v, v ∈ st.visited ↔ v ∈ st.sorted.map (fun b => b.uuid)

lemma visit_vlink (bm : List BranchData) (fuel : Nat) (temp : List String) (st : SortSt)
    (u : String) (h : VLink st) : VLink (visit bm fuel temp st u) := by
  obtain ⟨n1, hs, hv, -, -, -, -, -⟩ := visit_shape bm fuel temp st u
  intro v
  have hst := h v
  rw [hv, hs]
  simp only [List.map_append, List.mem_append, List.mem_reverse]
  tauto

lemma opl_mono_cyc {bm : List BranchData} {sorted : List BranchData} {cyc cyc2 : List String}
    (h : OPl bm sorted cyc) (hsub : ∀ d ∈ cyc, d ∈ cyc2) : OPl bm sorted cyc2 := by
  intro i hi p h3 h4 h5
  rcases h i hi p h3 h4 h5 with hl | hr
  · exact Or.inl hl
  · exact Or.inr (hsub p hr)

lemma opl_append_one {bm : List BranchData} {sorted1 : List BranchData} {cyc1 : List String}
    {branch : BranchData}
    (hOP1 : OPl bm sorted1 cyc1)
    (hnew : ∀ p, branch.parent_uuid = some p → p ≠ "" → (mapGet bm p).isSome →
      (∃ e ∈ sorted1, e.uuid = p) ∨ p ∈ cyc1) :
    OPl bm (sorted1 ++ [branch]) cyc1 := by
  intro i hi p h3 h4 h5
  by_cases hi1 : i < sorted1.length
  · rw [List.get_append i hi1] at h3
    rcases hOP1 i hi1 p h3 h4 h5 with ⟨j, hj, hji, hjp⟩ | hc
    · refine Or.inl ⟨j, by simp; omega, hji, ?_⟩
      rw [List.get_append j hj]
      exact hjp
    · exact Or.inr hc
  · have hieq : i = sorted1.length := by
      simp at hi
      omega
    have hget : (sorted1 ++ [branch]).get ⟨i, hi⟩ = branch := by
      subst hieq
      simp
    rw [hget] at h3
    rcases hnew p h3 h4 h5 with ⟨e, he, heu⟩ | hc
    · obtain ⟨⟨j, hj⟩, hje⟩ := List.mem_iff_get.1 he
      refine Or.inl ⟨j, by simp; omega, by omega, ?_⟩
      rw [List.get_append j hj, hje]
      exact heu
    · exact Or.inr hc

lemma visit_main (bm : List BranchData) :
    ∀ (fuel : Nat) (temp : List String) (st : SortSt) (u : String),
      ((branchKeys bm) \ temp.toFinset).card < fuel →
      OP bm st → VLink st →
      OP bm (visit bm fuel temp st u) ∧
      (u ∉ temp → (mapGet bm u).isSome → u ∈ (visit bm fuel temp st u).visited) := by
  intro fuel
  induction fuel with
  | zero =>
    intro temp st u hfuel
    omega
  | succ fuel ih =>
    intro temp st u hfuel hOP hVL
    by_cases h1 : u ∈ st.visited
    · have hres : visit bm (fuel + 1) temp st u = st := by
        simp [visit, h1]
      rw [hres]
      exact ⟨hOP, fun _ _ => h1⟩
    · by_cases h2 : u ∈ temp
      · have hres : visit bm (fuel + 1) temp st u = { st with cycWarns := st.cycWarns ++ [u] } := by
          simp [visit, h1, h2]
        rw [hres]
        constructor
        · exact opl_mono_cyc hOP (fun d hd => List.mem_append_left _ hd)
        · intro hnt
          exact absurd h2 hnt
      · cases hg : mapGet bm u with
        | none =>
          have hres : visit bm (fuel + 1) temp st u =
              { st with missWarns := st.missWarns ++ [u] } := by
            simp [visit, h1, h2, hg]
          rw [hres]
          refine ⟨hOP, ?_⟩
          intro hnt hs
          simp at hs
        | some branch =>
          obtain ⟨hmem, huuid⟩ := mapGet_mem hg
          have hukeys : u ∈ branchKeys bm := mem_branchKeys_of_mapGet (by rw [hg]; rfl)
          have hfuel' : ((branchKeys bm) \ ((u :: temp).toFinset)).card < fuel := by
            have hnt : u ∉ temp.toFinset := by
              rw [List.mem_toFinset]
              exact h2
            have hlt := sdiff_insert_card_lt hukeys hnt
            rw [List.toFinset_cons]
            omega
          rcases hpar : branch.parent_uuid with _ | p
          · have hres : visit bm (fuel + 1) temp st u =
                { st with visited := u :: st.visited, sorted := st.sorted ++ [branch] } := by
              simp [visit, h1, h2, hg, hpar]
            rw [hres]
            constructor
            · refine opl_append_one hOP ?_
              intro p h3
              rw [hpar] at h3
              exact absurd h3 (by simp)
            · intro _ _
              exact List.mem_cons_self u st.visited
          · by_cases hpe : p = ""
            · have hres : visit bm (fuel + 1) temp st u =
                  { st with visited := u :: st.visited, sorted := st.sorted ++ [branch] } := by
                simp [visit, h1, h2, hg, hpar, hpe]
              rw [hres]
              constructor
              · refine opl_append_one hOP ?_
                intro q h3 h4 h5
                rw [hpar] at h3
                have hpq : p = q := by
                  simpa using h3
                rw [← hpq, hpe] at h4
                exact absurd rfl h4
              · intro _ _
                exact List.mem_cons_self u st.visited
            · have hres : visit bm (fuel + 1) temp st u =
                  { visit bm fuel (u :: temp) st p with
                    visited := u :: (visit bm fuel (u :: temp) st p).visited,
                    sorted := (visit bm fuel (u :: temp) st p).sorted ++ [branch] } := by
                simp [visit, h1, h2, hg, hpar, hpe]
              have hOP1 : OP bm (visit bm fuel (u :: temp) st p) :=
                (ih (u :: temp) st p hfuel' hOP hVL).1
              have hVL1 : VLink (visit bm fuel (u :: temp) st p) :=
                visit_vlink bm fuel (u :: temp) st p hVL
              rw [hres]
              constructor
              · refine opl_append_one hOP1 ?_
                intro q h3 h4 h5
                rw [hpar] at h3
                have hpq : p = q := by
                  simpa using h3
                subst hpq
                have hstatus : p ∈ (visit bm fuel (u :: temp) st p).visited ∨
                    p ∈ (visit bm fuel (u :: temp) st p).cycWarns := by
                  by_cases hpt : p ∈ u :: temp
                  · obtain ⟨f2, rfl⟩ : ∃ f2, fuel = f2 + 1 := ⟨fuel - 1, by omega⟩
                    by_cases hpv : p ∈ st.visited
                    · have hst1 : visit bm (f2 + 1) (u :: temp) st p = st := by
                        simp [visit, hpv]
                      rw [hst1]
                      exact Or.inl hpv
                    · have hst1 : visit bm (f2 + 1) (u :: temp) st p =
                          { st with cycWarns := st.cycWarns ++ [p] } := by
                        simp [visit, hpv, hpt]
                      rw [hst1]
                      exact Or.inr (by simp)
                  · exact Or.inl ((ih (u :: temp) st p hfuel' hOP hVL).2 hpt h5)
                rcases hstatus with hv | hc
                · have := (hVL1 p).1 hv
                  rw [List.mem_map] at this
                  obtain ⟨e, he, heu⟩ := this
                  exact Or.inl ⟨e, he, heu⟩
                · exact Or.inr hc
              · intro _ _
                exact List.mem_cons_self u _

lemma visit_cyc (bm : List BranchData) :
    ∀ (fuel : Nat) (temp : List String) (st : SortSt) (u : String),
      (∀ t ∈ temp, Relation.TransGen (ParentEdge bm) t u) →
      (∀ d ∈ st.cycWarns, Relation.TransGen (ParentEdge bm) d d) →
      ∀ d ∈ (visit bm fuel temp st u).cycWarns, Relation.TransGen (ParentEdge bm) d d := by
  intro fuel
  induction fuel with
  | zero =>
    intro temp st u hTC hD
    simpa [visit] using hD
  | succ fuel ih =>
    intro temp st u hTC hD
    by_cases h1 : u ∈ st.visited
    · have hres : visit bm (fuel + 1) temp st u = st := by
        simp [visit, h1]
      rw [hres]
      exact hD
    · by_cases h2 : u ∈ temp
      · have hres : visit bm (fuel + 1) temp st u = { st with cycWarns := st.cycWarns ++ [u] } := by
          simp [visit, h1, h2]
        rw [hres]
        intro d hd
        rcases List.mem_append.1 hd with hd | hd
        · exact hD d hd
        · simp at hd
          subst hd
          exact hTC d h2
      · cases hg : mapGet bm u with
        | none =>
          have hres : visit bm (fuel + 1) temp st u =
              { st with missWarns := st.missWarns ++ [u] } := by
            simp [visit, h1, h2, hg]
          rw [hres]
          exact hD
        | some branch =>
          rcases hpar : branch.parent_uuid with _ | p
          · have hres : visit bm (fuel + 1) temp st u =
                { st with visited := u :: st.visited, sorted := st.sorted ++ [branch] } := by
              simp [visit, h1, h2, hg, hpar]
            rw [hres]
            exact hD
          · by_cases hpe : p = ""
            · have hres : visit bm (fuel + 1) temp st u =
                  { st with visited := u :: st.visited, sorted := st.sorted ++ [branch] } := by
                simp [visit, h1, h2, hg, hpar, hpe]
              rw [hres]
              exact hD
            · have hres : visit bm (fuel + 1) temp st u =
                  { visit bm fuel (u :: temp) st p with
                    visited := u :: (visit bm fuel (u :: temp) st p).visited,
                    sorted := (visit bm fuel (u :: temp) st p).sorted ++ [branch] } := by
                simp [visit, h1, h2, hg, hpar, hpe]
              have hedge : ParentEdge bm u p := by
                unfold ParentEdge parentEdgeB
                rw [hg]
                simp [hpar, hpe]
              have hTC2 : ∀ t ∈ u :: temp, Relation.TransGen (ParentEdge bm) t p := by
                intro t ht
                rcases List.mem_cons.1 ht with rfl | ht
                · exact Relation.TransGen.single hedge
                · exact (hTC t ht).tail hedge
              rw [hres]
              exact ih (u :: temp) st p hTC2 hD

lemma sort_fold (branches : List BranchData) :
    ∀ (l : List BranchData) (st : SortSt),
      OP branches st → VLink st →
      (∀ d ∈ st.cycWarns, Relation.TransGen (ParentEdge branches) d d) →
      (∀ b ∈ st.sorted, mapGet branches b.uuid = some b) →
      (st.sorted.map (fun b => b.uuid)).Nodup →
      OP branches (l.foldl (fun s b => visit branches (branches.length + 1) [] s b.uuid) st) ∧
      VLink (l.foldl (fun s b => visit branches (branches.length + 1) [] s b.uuid) st) ∧
      (∀ d ∈ (l.foldl (fun s b => visit branches (branches.length + 1) [] s b.uuid) st).cycWarns,
        Relation.TransGen (ParentEdge branches) d d) ∧
      (∀ b ∈ (l.foldl (fun s b => visit branches (branches.length + 1) [] s b.uuid) st).sorted,
        mapGet branches b.uuid = some b) ∧
      ((l.foldl (fun s b => visit branches (branches.length + 1) [] s b.uuid) st).sorted.map
        (fun b => b.uuid)).Nodup ∧
      (∀ b ∈ l, (mapGet branches b.uuid).isSome →
        b.uuid ∈ (l.foldl (fun s b => visit branches (branches.length + 1) [] s b.uuid) st).visited) ∧
      (∀ v ∈ st.visited,
        v ∈ (l.foldl (fun s b => visit branches (branches.length + 1) [] s b.uuid) st).visited) := by
  intro l
  induction l with
  | nil =>
    intro st hOP hVL hcyc hmap hnd
    exact ⟨hOP, hVL, hcyc, hmap, hnd, by simp, fun v hv => hv⟩
  | cons b l ihl =>
    intro st hOP hVL hcyc hmap hnd
    have hfuel : ((branchKeys branches) \ (([] : List String).toFinset)).card <
        branches.length + 1 := by
      have h1 : (branchKeys branches).card ≤ branches.length := by
        have := List.toFinset_card_le (branches.map (fun b => b.uuid))
        simpa [branchKeys] using this
      simpa using by omega
    have hOP2 := (visit_main branches (branches.length + 1) [] st b.uuid hfuel hOP hVL).1
    have hcompl2 := (visit_main branches (branches.length + 1) [] st b.uuid hfuel hOP hVL).2
    have hVL2 := visit_vlink branches (branches.length + 1) [] st b.uuid hVL
    have hcyc2 := visit_cyc branches (branches.length + 1) [] st b.uuid (by simp) hcyc
    obtain ⟨n1, hs, hv, hm1, ht1, hn1, -, -⟩ :=
      visit_shape branches (branches.length + 1) [] st b.uuid
    have hmap2 : ∀ c ∈ (visit branches (branches.length + 1) [] st b.uuid).sorted,
        mapGet branches c.uuid = some c := by
      intro c hc
      rw [hs] at hc
      rcases List.mem_append.1 hc with hc | hc
      · exact hmap c hc
      · exact hm1 c hc
    have hnd2 : ((visit branches (branches.length + 1) [] st b.uuid).sorted.map
        (fun b => b.uuid)).Nodup := by
      rw [hs, List.map_append]
      refine List.Nodup.append hnd hn1 ?_
      intro a ha hb2
      rw [List.mem_map] at ha hb2
      obtain ⟨e1, he1, hu1⟩ := ha
      obtain ⟨e2, he2, hu2⟩ := hb2
      have hvis : a ∈ st.visited := (hVL a).2 (by
        rw [List.mem_map]
        exact ⟨e1, he1, hu1⟩)
      exact (ht1 e2 he2).2 (hu2 ▸ hvis)
    have hmono : ∀ v ∈ st.visited,
        v ∈ (visit branches (branches.length + 1) [] st b.uuid).visited := by
      intro v hvv
      rw [hv]
      exact List.mem_append_right _ hvv
    rw [List.foldl_cons]
    obtain ⟨c1, c2, c3, c4, c5, c6, c7⟩ :=
      ihl (visit branches (branches.length + 1) [] st b.uuid) hOP2 hVL2 hcyc2 hmap2 hnd2
    refine ⟨c1, c2, c3, c4, c5, ?_, fun v hvv => c7 v (hmono v hvv)⟩
    intro x hx hxs
    rcases List.mem_cons.1 hx with rfl | hx
    · exact c7 x.uuid (hcompl2 (by simp) hxs)
    · exact c6 x hx hxs

lemma sort_facts (branches : List BranchData) :
    OP branches (sortBranchesForRegistration branches) ∧
    VLink (sortBranchesForRegistration branches) ∧
    (∀ d ∈ (sortBranchesForRegistration branches).cycWarns,
      Relation.TransGen (ParentEdge branches) d d) ∧
    (∀ b ∈ (sortBranchesForRegistration branches).sorted, mapGet branches b.uuid = some b) ∧
    ((sortBranchesForRegistration branches).sorted.map (fun b => b.uuid)).Nodup ∧
    (∀ b ∈ branches, (mapGet branches b.uuid).isSome →
      b.uuid ∈ (sortBranchesForRegistration branches).visited) := by
  have h := sort_fold branches branches ⟨[], [], [], []⟩
    (by intro i hi; simp at hi) (by intro v; simp) (by simp) (by simp) (by simp)
  unfold sortBranchesForRegistration
  exact ⟨h.1, h.2.1, h.2.2.1, h.2.2.2.1, h.2.2.2.2.1, h.2.2.2.2.2.1⟩

lemma sort_perm (branches : List BranchData)
    (hnd : (branches.map (fun b => b.uuid)).Nodup) :
    (sortBranchesForRegistration branches).sorted.Perm branches := by
  obtain ⟨hOP, hVL, hcyc, hmap, hnodup, hcompl⟩ := sort_facts branches
  have h1 : ∀ b ∈ (sortBranchesForRegistration branches).sorted, b ∈ branches :=
    fun b hb => (mapGet_mem (hmap b hb)).1
  have h2 : ∀ b ∈ branches, b ∈ (sortBranchesForRegistration branches).sorted := by
    intro b hb
    have hs := mapGet_isSome_of_mem hb
    have hv := hcompl b hb hs
    have hm := (hVL b.uuid).1 hv
    rw [List.mem_map] at hm
    obtain ⟨e, he, heu⟩ := hm
    have heb : e = b := List.inj_on_of_nodup_map hnd (h1 e he) hb heu
    rwa [← heb]
  refine List.perm_of_nodup_nodup_toFinset_eq
    (List.Nodup.of_map _ hnodup) (List.Nodup.of_map _ hnd) ?_
  ext a
  simp only [List.mem_toFinset]
  exact ⟨h1 a, h2 a⟩

lemma parentEdge_rank {bm : List BranchData} {rank : String → Nat}
    (hrank : ∀ b ∈ bm, ∀ p, b.parent_uuid = some p → rank p < rank b.uuid)
    {u v : String} (h : ParentEdge bm u v) : rank v < rank u := by
  obtain ⟨br, hbr, hbp, -⟩ := parentEdge_elim h
  obtain ⟨hm, hu⟩ := mapGet_mem hbr
  have := hrank br hm v hbp
  rwa [hu] at this

lemma transGen_rank {bm : List BranchData} {rank : String → Nat}
    (hrank : ∀ b ∈ bm, ∀ p, b.parent_uuid = some p → rank p < rank b.uuid)
    {a b : String} (h : Relation.TransGen (ParentEdge bm) a b) : rank b < rank a := by
  induction h with
  | single h1 => exact parentEdge_rank hrank h1
  | tail h1 h2 ih => exact lt_trans (parentEdge_rank hrank h2) ih

lemma transGen_first_edge {bm : List BranchData} {a b : String}
    (h : Relation.TransGen (ParentEdge bm) a b) : ∃ c, ParentEdge bm a c := by
  induction h with
  | single h1 => exact ⟨_, h1⟩
  | tail h1 h2 ih => exact ih

/-- Claim C1: for every list of branch records with pairwise-distinct uuids,
acyclic parent links, and every non-null `parent_uuid` resolving to a record
in the list, `sortBranchesForRegistration` returns a permutation of the
input in which, for every record with a non-null `parent_uuid`, the record
carrying that uuid appears strictly earlier.  Acyclicity is formalised by a
rank function that strictly decreases along parent links (such a function
exists exactly when the finite parent graph has no cycle); resolvability
additionally requires parents to be non-empty strings, because in the data
model a `parent_uuid` is either a genuine identifier or null (the collection
pass maps falsy values to null, StorageRebuilder.js line 298). -/
theorem sortBranchesForRegistration_parents_first (branches : List BranchData)
    (rank : String → Nat)
    (hnd : (branches.map (fun b => b.uuid)).Nodup)
    (hres : ∀ b ∈ branches, ∀ p, b.parent_uuid = some p →
      p ≠ "" ∧ ∃ c ∈ branches, c.uuid = p)
    (hrank : ∀ b ∈ branches, ∀ p, b.parent_uuid = some p → rank p < rank b.uuid) :
    (sortBranchesForRegistration branches).sorted.Perm branches ∧
    ∀ i (hi : i < (sortBranchesForRegistration branches).sorted.length) p,
      ((sortBranchesForRegistration branches).sorted.get ⟨i, hi⟩).parent_uuid = some p →
      ∃ j, ∃ hj : j < (sortBranchesForRegistration branches).sorted.length,
        j < i ∧ ((sortBranchesForRegistration branches).sorted.get ⟨j, hj⟩).uuid = p := by
  obtain ⟨hOP, hVL, hcyc, hmap, hnodup, hcompl⟩ := sort_facts branches
  refine ⟨sort_perm branches hnd, ?_⟩
  intro i hi p hp
  have hentry_mem := List.get_mem (sortBranchesForRegistration branches).sorted i hi
  have hbr : (sortBranchesForRegistration branches).sorted.get ⟨i, hi⟩ ∈ branches :=
    (mapGet_mem (hmap _ hentry_mem)).1
  obtain ⟨hpne, c, hc, hcu⟩ := hres _ hbr p hp
  have hpsome : (mapGet branches p).isSome := by
    have := mapGet_isSome_of_mem hc
    rwa [hcu] at this
  rcases hOP i hi p hp hpne hpsome with ⟨j, hj, hji, hjp⟩ | hcw
  · exact ⟨j, hj, hji, hjp⟩
  · exact absurd (transGen_rank hrank (hcyc p hcw)) (lt_irrefl _)

/-- Concrete acyclic batch with a root and a child, given in
child-before-parent order so that the sort actually has to reorder. -/
def chainBranches : List BranchData :=
  [⟨"B", some "A", "A", "c", "childB", none, 2⟩,
   ⟨"A", none, "A", "c", "rootA", none, 1⟩]

/-- Witness for `sortBranchesForRegistration_parents_first` at a concrete
two-record acyclic batch. -/
theorem sortBranchesForRegistration_parents_first_witness :
    ((chainBranches.map (fun b => b.uuid)).Nodup ∧
     (∀ b ∈ chainBranches, ∀ p, b.parent_uuid = some p →
       p ≠ "" ∧ ∃ c ∈ chainBranches, c.uuid = p) ∧
     (∀ b ∈ chainBranches, ∀ p, b.parent_uuid = some p →
       (if p = "A" then 0 else 1) < (if b.uuid = "A" then 0 else 1))) ∧
    ((sortBranchesForRegistration chainBranches).sorted.Perm chainBranches ∧
     ∀ i (hi : i < (sortBranchesForRegistration chainBranches).sorted.length) p,
       ((sortBranchesForRegistration chainBranches).sorted.get ⟨i, hi⟩).parent_uuid = some p →
       ∃ j, ∃ hj : j < (sortBranchesForRegistration chainBranches).sorted.length,
         j < i ∧ ((sortBranchesForRegistration chainBranches).sorted.get ⟨j, hj⟩).uuid = p) := by
  have hres : ∀ b ∈ chainBranches, ∀ p, b.parent_uuid = some p →
      p ≠ "" ∧ ∃ c ∈ chainBranches, c.uuid = p := by
    intro b hb p hp
    fin_cases hb
    · have hpa : p = "A" := by simpa using hp.symm
      subst hpa
      decide
    · simp at hp
  have hrank : ∀ b ∈ chainBranches, ∀ p, b.parent_uuid = some p →
      (fun s => if s = "A" then 0 else 1) p < (fun s => if s = "A" then 0 else 1) b.uuid := by
    intro b hb p hp
    fin_cases hb
    · have hpa : p = "A" := by simpa using hp.symm
      subst hpa
      decide
    · simp at hp
  exact ⟨⟨by decide, hres, hrank⟩,
    sortBranchesForRegistration_parents_first chainBranches
      (fun s => if s = "A" then 0 else 1) (by decide) hres hrank⟩

/-- Cyclic batch with a duplicated uuid: records one and three both carry
uuid `A`. -/
def dupCycBranches : List BranchData :=
  [⟨"A", some "B", "A", "c", "a1", none, 1⟩,
   ⟨"B", some "A", "A", "c", "b", none, 2⟩,
   ⟨"A", some "B", "A", "c", "a3", none, 3⟩]

/-- Claim C2 counterexample: the claim quantifies over every input list
containing a parent cycle and asserts that every input record still appears
exactly once in the output (a permutation).  This three-record input
contains the parent cycle `A -> B -> A`, yet the sort emits only two
entries (the `Map` constructor collapses the duplicated uuid `A`), so the
output is not a permutation of the input. -/
theorem sortBranches_cycle_counterexample :
    Relation.TransGen (ParentEdge dupCycBranches) "A" "A" ∧
    (sortBranchesForRegistration dupCycBranches).sorted.length = 2 ∧
    dupCycBranches.length = 3 ∧
    ¬ (sortBranchesForRegistration dupCycBranches).sorted.Perm dupCycBranches := by
  refine ⟨Relation.TransGen.head
      (show ParentEdge dupCycBranches "A" "B" from by decide)
      (Relation.TransGen.single (show ParentEdge dupCycBranches "B" "A" from by decide)),
    by decide, by decide, ?_⟩
  intro hperm
  have hl := hperm.length_eq
  rw [show (sortBranchesForRegistration dupCycBranches).sorted.length = 2 from by decide,
    show dupCycBranches.length = 3 from by decide] at hl
  exact absurd hl (by decide)

/-- Claim C2 (amended): for every input list of branch records with
pairwise-distinct uuids that contains a parent cycle,
`sortBranchesForRegistration` terminates without raising (the embedding is
a total function), emits a circular-dependency diagnostic naming an
identifier that lies on a parent cycle, and still emits every input record
exactly once (the output is a permutation of the input).  The amendment
adds the pairwise-distinct-uuid hypothesis, which the duplicated-uuid
counterexample above shows to be necessary. -/
theorem sortBranchesForRegistration_cycle_spec (branches : List BranchData)
    (hnd : (branches.map (fun b => b.uuid)).Nodup)
    (hcyc : ∃ u, Relation.TransGen (ParentEdge branches) u u) :
    (sortBranchesForRegistration branches).sorted.Perm branches ∧
    ∃ d ∈ (sortBranchesForRegistration branches).cycWarns,
      Relation.TransGen (ParentEdge branches) d d := by
  obtain ⟨hOP, hVL, hcycS, hmap, hnodup, hcompl⟩ := sort_facts branches
  have hperm := sort_perm branches hnd
  refine ⟨hperm, ?_⟩
  rcases hw : (sortBranchesForRegistration branches).cycWarns with _ | ⟨d, rest⟩
  · exfalso
    obtain ⟨u, hu⟩ := hcyc
    have hstep : ∀ a b2 : String, ParentEdge branches a b2 → (mapGet branches b2).isSome →
        ((sortBranchesForRegistration branches).sorted.map (fun b => b.uuid)).indexOf b2 <
        ((sortBranchesForRegistration branches).sorted.map (fun b => b.uuid)).indexOf a := by
      intro a b2 hedge hbsome
      obtain ⟨br, hbr, hbp, hbne⟩ := parentEdge_elim hedge
      obtain ⟨hbrm, hbru⟩ := mapGet_mem hbr
      have hbrout : br ∈ (sortBranchesForRegistration branches).sorted := hperm.mem_iff.2 hbrm
      have hain : a ∈ (sortBranchesForRegistration branches).sorted.map (fun b => b.uuid) := by
        rw [List.mem_map]
        exact ⟨br, hbrout, hbru⟩
      have hia := List.indexOf_lt_length.2 hain
      have hil : ((sortBranchesForRegistration branches).sorted.map (fun b => b.uuid)).indexOf a <
          (sortBranchesForRegistration branches).sorted.length := by
        simpa using hia
      have hgeta := List.indexOf_get hia
      have hentry : ((sortBranchesForRegistration branches).sorted.get
          ⟨((sortBranchesForRegistration branches).sorted.map (fun b => b.uuid)).indexOf a, hil⟩).uuid
          = a := by
        conv_rhs => rw [← hgeta]
        rw [List.get_map]
      have hentry_eq : (sortBranchesForRegistration branches).sorted.get
          ⟨((sortBranchesForRegistration branches).sorted.map (fun b => b.uuid)).indexOf a, hil⟩
          = br := by
        have h1 := hmap _ (List.get_mem (sortBranchesForRegistration branches).sorted _ hil)
        rw [hentry, hbr] at h1
        exact (Option.some_injective _ h1).symm
      have hpar_entry : ((sortBranchesForRegistration branches).sorted.get
          ⟨((sortBranchesForRegistration branches).sorted.map (fun b => b.uuid)).indexOf a, hil⟩).parent_uuid
          = some b2 := by
        rw [hentry_eq]
        exact hbp
      rcases hOP _ hil b2 hpar_entry hbne hbsome with ⟨j, hj, hji, hjp⟩ | hcw2
      · have hjl : j < ((sortBranchesForRegistration branches).sorted.map (fun b => b.uuid)).length := by
          simpa using hj
        have hjb : ((sortBranchesForRegistration branches).sorted.map (fun b => b.uuid)).get ⟨j, hjl⟩ = b2 := by
          simpa using hjp
        have hidx := List.get_indexOf hnodup ⟨j, hjl⟩
        rw [hjb] at hidx
        simp at hidx
        omega
      · rw [hw] at hcw2
        simp at hcw2
    have htg : ∀ a b2 : String, Relation.TransGen (ParentEdge branches) a b2 →
        (mapGet branches b2).isSome →
        ((sortBranchesForRegistration branches).sorted.map (fun b => b.uuid)).indexOf b2 <
        ((sortBranchesForRegistration branches).sorted.map (fun b => b.uuid)).indexOf a := by
      intro a b2 h
      induction h with
      | single h1 => exact fun hsome => hstep _ _ h1 hsome
      | tail h1 h2 ih =>
        exact fun hsome => lt_trans (hstep _ _ h2 hsome) (ih (parentEdge_isSome h2))
    obtain ⟨c0, hc0⟩ := transGen_first_edge hu
    exact absurd (htg u u hu (parentEdge_isSome hc0)) (lt_irrefl _)
  · exact ⟨d, by simp, hcycS d (by rw [hw]; simp)⟩

/-- Two-record parent cycle with distinct uuids, the scenario named by the
specification. -/
def twoCycBranches : List BranchData :=
  [⟨"A", some "B", "A", "c", "a", none, 1⟩,
   ⟨"B", some "A", "A", "c", "b", none, 2⟩]

/-- Witness for `sortBranchesForRegistration_cycle_spec` at the two-record
cycle scenario. -/
theorem sortBranchesForRegistration_cycle_spec_witness :
    ((twoCycBranches.map (fun b => b.uuid)).Nodup ∧
     Relation.TransGen (ParentEdge twoCycBranches) "A" "A") ∧
    ((sortBranchesForRegistration twoCycBranches).sorted.Perm twoCycBranches ∧
     ∃ d ∈ (sortBranchesForRegistration twoCycBranches).cycWarns,
       Relation.TransGen (ParentEdge twoCycBranches) d d) :=
  ⟨⟨by decide, Relation.TransGen.head
      (show ParentEdge twoCycBranches "A" "B" from by decide)
      (Relation.TransGen.single (show ParentEdge twoCycBranches "B" "A" from by decide))⟩,
   sortBranchesForRegistration_cycle_spec twoCycBranches (by decide)
     ⟨"A", Relation.TransGen.head
       (show ParentEdge twoCycBranches "A" "B" from by decide)
       (Relation.TransGen.single (show ParentEdge twoCycBranches "B" "A" from by decide))⟩⟩

/-- Projection of the internal tree node relevant to
`ChatTreeView.findCurrentNode`: its uuid key and display name (parent,
children and payload play no role in the lookup). -/
structure NodeEntry where
  id : String
  name : String
deriving DecidableEq, Repr

/-- `this.nodeMap.get(uuid)` for the node map (a JS `Map`, keys unique),
modelled as the first entry with the given id in iteration order. -/
def nodeMapGet (m : List NodeEntry) (u : String) : Option NodeEntry :=
  m.find? (fun n => n.id == u)

/-- JS `String.prototype.trim`, on the character list so that kernel
evaluation stays available. -/
def jsTrim (s : String) : String :=
  String.mk (((s.data.dropWhile Char.isWhitespace).reverse.dropWhile Char.isWhitespace).reverse)

/-- JS `String.prototype.toLowerCase`. -/
def jsLower (s : String) : String :=
  String.mk (s.data.map Char.toLower)

/-- Substring test on character lists (JS `String.prototype.includes`):
the needle occurs as a contiguous run of the haystack. -/
def listContainsSub (needle : List Char) : List Char → Bool
  | [] => needle.isPrefixOf []
  | c :: t => needle.isPrefixOf (c :: t) || listContainsSub needle t

/-- JS `hay.includes(needle)`. -/
def jsIncludes (hay needle : String) : Bool :=
  listContainsSub needle.data hay.data

/-- `ChatTreeView.findCurrentNode` (ChatTreeView.js lines 263-335) as a
function of the node map (in iteration order), the current chat's uuid
(`none` embeds a falsy `currentChatUUID`) and the current chat's file name:
try the uuid lookup, then the first exact name match, then the first
case-insensitive trimmed match, then the first partial (substring either
way) match on the lowercased trimmed names, and finally fall back to the
first node of a non-empty map. -/
def findCurrentNode (nodeMap : List NodeEntry) (currentChatUUID : Option String)
    (currentChatFile : String) : Option NodeEntry :=
  match currentChatUUID.bind (fun u => nodeMapGet nodeMap u) with
  | some n => some n
  | none =>
    match nodeMap.find? (fun n => n.name == currentChatFile) with
    | some n => some n
    | none =>
      match nodeMap.find? (fun n =>
          jsTrim (jsLower n.name) == jsTrim (jsLower currentChatFile)) with
      | some n => some n
      | none =>
        match nodeMap.find? (fun n =>
            jsIncludes (jsTrim (jsLower n.name)) (jsTrim (jsLower currentChatFile)) ||
            jsIncludes (jsTrim (jsLower currentChatFile)) (jsTrim (jsLower n.name))) with
        | some n => some n
        | none => nodeMap.head?

/-- Claim C4: `findCurrentNode` selects the current node by trying, in
order and stopping at the first success, the exact uuid lookup, the first
exact name match, the first case-insensitive trimmed name match, and the
first substring match in either direction (on the lowercased trimmed
names); when all fail and the node map is non-empty it falls back to the
first node in iteration order, so the selected node is `none` exactly when
the map is empty. -/
theorem findCurrentNode_spec (m : List NodeEntry) (uuid : Option String) (file : String) :
    findCurrentNode m uuid file =
      ((((uuid.bind (fun u => nodeMapGet m u)).or
        (m.find? (fun n => n.name == file))).or
        (m.find? (fun n => jsTrim (jsLower n.name) == jsTrim (jsLower file)))).or
        (m.find? (fun n =>
          jsIncludes (jsTrim (jsLower n.name)) (jsTrim (jsLower file)) ||
          jsIncludes (jsTrim (jsLower file)) (jsTrim (jsLower n.name))))).or
        m.head? ∧
    (findCurrentNode m uuid file = none ↔ m = []) := by
  have hchain : findCurrentNode m uuid file =
      ((((uuid.bind (fun u => nodeMapGet m u)).or
        (m.find? (fun n => n.name == file))).or
        (m.find? (fun n => jsTrim (jsLower n.name) == jsTrim (jsLower file)))).or
        (m.find? (fun n =>
          jsIncludes (jsTrim (jsLower n.name)) (jsTrim (jsLower file)) ||
          jsIncludes (jsTrim (jsLower file)) (jsTrim (jsLower n.name))))).or
        m.head? := by
    rcases h1 : uuid.bind (fun u => nodeMapGet m u) with _ | n1
    · rcases h2 : m.find? (fun n => n.name == file) with _ | n2
      · rcases h3 : m.find? (fun n => jsTrim (jsLower n.name) == jsTrim (jsLower file)) with _ | n3
        · rcases h4 : m.find? (fun n =>
              jsIncludes (jsTrim (jsLower n.name)) (jsTrim (jsLower file)) ||
              jsIncludes (jsTrim (jsLower file)) (jsTrim (jsLower n.name))) with _ | n4
          · simp [findCurrentNode, h1, h2, h3, h4]
          · simp [findCurrentNode, h1, h2, h3, h4]
        · simp [findCurrentNode, h1, h2, h3]
      · simp [findCurrentNode, h1, h2]
    · simp [findCurrentNode, h1]
  refine ⟨hchain, ?_⟩
  rw [hchain]
  constructor
  · intro hnone
    rcases Option.or_eq_none.1 hnone with ⟨-, hh⟩
    exact List.head?_eq_none_iff.1 hh
  · intro hm
    subst hm
    rcases uuid with _ | u <;> simp [nodeMapGet]

mutual
/-- Tree node of the plugin response consumed by
`ChatTreeView.buildNodeMapFromTree` (uuid, chat name, children).  The
internal nodes created by `processNode` mirror this shape, and each
internal node's `parent` pointer is set to the node that created it, i.e.
its structural parent in this tree. -/
inductive PTree where
  | node (id : String) (name : String) (children : PForest)
/-- Sibling list of trees (a `children` array or an array of roots). -/
inductive PForest where
  | nil
  | cons (t : PTree) (f : PForest)
end

/-- Uuid of a tree node. -/
def PTree.id : PTree → String
  | .node i _ _ => i

/-- Display name of a tree node. -/
def PTree.name : PTree → String
  | .node _ n _ => n

/-- Children of a tree node. -/
def PTree.children : PTree → PForest
  | .node _ _ cs => cs

/-- Indexing into a sibling list. -/
def PForest.get? : PForest → Nat → Option PTree
  | .nil, _ => none
  | .cons t _, 0 => some t
  | .cons _ f, n + 1 => f.get? n

/-- The node reached from a root by following a path of child indexes; a
location `(root, path)` identifies one internal node of the built tree,
and its `parent` pointer refers to the location `(root, path.dropLast)`. -/
def PTree.nodeAt : PTree → List Nat → Option PTree
  | t, [] => some t
  | t, i :: rest => (t.children.get? i).bind (fun c => c.nodeAt rest)

mutual
/-- All nodes of a tree in preorder (the node itself first, then the nodes
of its children), i.e. exactly the nodes `processNode` creates under it. -/
def PTree.subtreeNodes : PTree → List PTree
  | .node i n cs => .node i n cs :: cs.subtreeNodesF
/-- All nodes of a sibling list in preorder. -/
def PForest.subtreeNodesF : PForest → List PTree
  | .nil => []
  | .cons t f => t.subtreeNodes ++ f.subtreeNodesF
end

/-- View state of `ChatTreeView` relevant to tree isolation: the full root
list, the visible root list, the located current node (as a location in
its tree) and the remembered current root. -/
structure ViewState where
  allTreeRoots : List PTree
  treeRoots : List PTree
  currentNode : Option (PTree × List Nat)
  currentRootNode : Option PTree

/-- The `while (root.parent) root = root.parent` loop of
`isolateActiveTree`: each step replaces the location's path by its
`dropLast` (the parent pointer), and the loop stops at a location with the
empty path, whose node has no parent. -/
def climbPath : List Nat → List Nat
  | [] => []
  | p :: rest => climbPath (p :: rest).dropLast
termination_by p => p.length
decreasing_by simp

/-- `ChatTreeView.isolateActiveTree` (ChatTreeView.js lines 337-353): with
no current node, show all trees; otherwise climb the parent pointers from
the current node and show exactly the reached root (the `getD` never fires:
the climbed path is empty, so the lookup returns the location's root). -/
def isolateActiveTree (st : ViewState) : ViewState :=
  match st.currentNode with
  | none => { st with treeRoots := st.allTreeRoots }
  | some loc =>
    let root := (loc.1.nodeAt (climbPath loc.2)).getD loc.1
    { st with currentRootNode := some root, treeRoots := [root] }

lemma climbPath_eq_nil : ∀ p : List Nat, climbPath p = [] := by
  have h : ∀ (n : Nat) (p : List Nat), p.length ≤ n → climbPath p = [] := by
    intro n
    induction n with
    | zero =>
      intro p hp
      have : p = [] := by
        cases p
        · rfl
        · simp at hp
      rw [this, climbPath]
    | succ n ihn =>
      intro p hp
      cases p with
      | nil => rw [climbPath]
      | cons a rest =>
        rw [climbPath]
        refine ihn (a :: rest).dropLast ?_
        simp at hp ⊢
        omega
  exact fun p => h p.length p le_rfl

lemma forest_get_subtree : ∀ (f : PForest) (i : Nat) (t : PTree),
    f.get? i = some t → ∀ x ∈ t.subtreeNodes, x ∈ f.subtreeNodesF
  | .nil, i, t => by
    intro h
    simp [PForest.get?] at h
  | .cons t0 f, 0, t => by
    intro h x hx
    simp [PForest.get?] at h
    subst h
    rw [PForest.subtreeNodesF]
    exact List.mem_append_left _ hx
  | .cons t0 f, i + 1, t => by
    intro h x hx
    rw [PForest.get?] at h
    rw [PForest.subtreeNodesF]
    exact List.mem_append_right _ (forest_get_subtree f i t h x hx)

lemma nodeAt_mem_subtree : ∀ (path : List Nat) (r n : PTree),
    r.nodeAt path = some n → n ∈ r.subtreeNodes
  | [], r, n => by
    intro h
    rw [PTree.nodeAt] at h
    simp at h
    subst h
    cases r with
    | node i nm cs =>
      rw [PTree.subtreeNodes]
      exact List.mem_cons_self _ _
  | i :: rest, r, n => by
    intro h
    rw [PTree.nodeAt] at h
    cases hg : r.children.get? i with
    | none => rw [hg] at h; simp at h
    | some c =>
      rw [hg] at h
      simp at h
      have hmem := nodeAt_mem_subtree rest c n h
      have hsub := forest_get_subtree r.children i c hg n hmem
      cases r with
      | node i2 nm cs =>
        rw [PTree.subtreeNodes]
        exact List.mem_cons_of_mem _ (by simpa [PTree.children] using hsub)

/-- Claim C5: for every view state whose current node has been located at a
location `(r, path)` in its tree, `isolateActiveTree` sets the visible
forest to exactly the one root `r` reached by following parent pointers
until a node with no parent, records it as the current root, leaves the
complete root list untouched for the tree switcher, and the visible forest
is exactly `r` together with its entire subtree — which contains the
current node and no node of any sibling tree. -/
theorem isolateActiveTree_spec (st : ViewState) (r : PTree) (path : List Nat) (n : PTree)
    (hcur : st.currentNode = some (r, path))
    (hloc : r.nodeAt path = some n) :
    (isolateActiveTree st).treeRoots = [r] ∧
    (isolateActiveTree st).allTreeRoots = st.allTreeRoots ∧
    (isolateActiveTree st).currentRootNode = some r ∧
    n ∈ r.subtreeNodes ∧
    (∀ x, (∃ rt ∈ (isolateActiveTree st).treeRoots, x ∈ rt.subtreeNodes) ↔
      x ∈ r.subtreeNodes) := by
  have hclimb : climbPath path = [] := climbPath_eq_nil path
  have hroot : (r.nodeAt (climbPath path)).getD r = r := by
    rw [hclimb, PTree.nodeAt]
    rfl
  have hres : isolateActiveTree st =
      { st with currentRootNode := some r, treeRoots := [r] } := by
    unfold isolateActiveTree
    rw [hcur]
    simp [hroot]
  rw [hres]
  refine ⟨rfl, rfl, rfl, nodeAt_mem_subtree path r n hloc, ?_⟩
  intro x
  constructor
  · rintro ⟨rt, hrt, hx⟩
    simp at hrt
    subst hrt
    exact hx
  · intro hx
    exact ⟨r, by simp, hx⟩

/-- Two-tree forest used as a concrete scenario: the current node is the
child `C` of root `R`, and `S` is a sibling tree. -/
def demoTreeR : PTree := .node "R" "root" (.cons (.node "C" "child" .nil) .nil)

/-- A sibling root next to `demoTreeR`. -/
def demoTreeS : PTree := .node "S" "sibling" .nil

/-- Witness for `isolateActiveTree_spec`: isolating from the child of `R`
in a two-tree forest keeps exactly the tree of `R` and preserves the full
root list. -/
theorem isolateActiveTree_spec_witness :
    ((⟨[demoTreeR, demoTreeS], [demoTreeR, demoTreeS],
        some (demoTreeR, [0]), none⟩ : ViewState).currentNode =
      some (demoTreeR, [0]) ∧
     demoTreeR.nodeAt [0] = some (.node "C" "child" .nil)) ∧
    ((isolateActiveTree ⟨[demoTreeR, demoTreeS], [demoTreeR, demoTreeS],
        some (demoTreeR, [0]), none⟩).treeRoots = [demoTreeR] ∧
     (isolateActiveTree ⟨[demoTreeR, demoTreeS], [demoTreeR, demoTreeS],
        some (demoTreeR, [0]), none⟩).allTreeRoots = [demoTreeR, demoTreeS] ∧
     (isolateActiveTree ⟨[demoTreeR, demoTreeS], [demoTreeR, demoTreeS],
        some (demoTreeR, [0]), none⟩).currentRootNode = some demoTreeR ∧
     PTree.node "C" "child" .nil ∈ demoTreeR.subtreeNodes ∧
     (∀ x, (∃ rt ∈ (isolateActiveTree ⟨[demoTreeR, demoTreeS], [demoTreeR, demoTreeS],
        some (demoTreeR, [0]), none⟩).treeRoots, x ∈ rt.subtreeNodes) ↔
       x ∈ demoTreeR.subtreeNodes)) :=
  ⟨⟨rfl, rfl⟩,
   isolateActiveTree_spec ⟨[demoTreeR, demoTreeS], [demoTreeR, demoTreeS],
     some (demoTreeR, [0]), none⟩ demoTreeR [0] (.node "C" "child" .nil) rfl rfl⟩

mutual
/-- `ChatRenameHandler.checkNodeForDuplicate(node, newName, excludeUuid)`
(ChatTreeView.js lines 1204-1214): the node collides when its id differs
from the excluded uuid (a null exclusion excludes nothing) and its name
equals the proposed name; otherwise its children are searched. -/
def checkNodeForDuplicate (newName : String) (excludeUuid : Option String) : PTree → Bool
  | .node i nm cs =>
    ((match excludeUuid with | none => true | some e => i != e) && (nm == newName)) ||
      checkForestForDuplicate newName excludeUuid cs
/-- `node.children.some(child => checkNodeForDuplicate(child, ...))`. -/
def checkForestForDuplicate (newName : String) (excludeUuid : Option String) : PForest → Bool
  | .nil => false
  | .cons t f =>
    checkNodeForDuplicate newName excludeUuid t || checkForestForDuplicate newName excludeUuid f
end

/-- `ChatRenameHandler.hasDuplicateName(newName, treeRoots, excludeUuid)`
(lines 1188-1195). -/
def hasDuplicateName (newName : String) (treeRoots : List PTree)
    (excludeUuid : Option String) : Bool :=
  treeRoots.any (fun root => checkNodeForDuplicate newName excludeUuid root)

/-- The character class of `this.INVALID_CHARS = /[<>:"/\\|?*]/g`
(ChatTreeView.js line 1132). -/
def INVALID_CHARS_SET : List Char := ['<', '>', ':', '"', '/', '\\', '|', '?', '*']

/-- One `test()` call on the global-flag regex `INVALID_CHARS`: the search
starts at the regex object's persistent `lastIndex`; on a match the call
returns true and `lastIndex` moves just past the matched character; on a
miss the call returns false and `lastIndex` resets to 0. -/
def regexTestG (s : String) (lastIndex : Nat) : Bool × Nat :=
  match (s.data.drop lastIndex).findIdx? (fun c => INVALID_CHARS_SET.contains c) with
  | some i => (true, lastIndex + i + 1)
  | none => (false, 0)

/-- The alternatives of `this.RESERVED_NAMES =
/^(CON|PRN|AUX|NUL|COM[1-9]|LPT[1-9])$/i` (line 1133). -/
def RESERVED_NAMES_LIST : List String :=
  ["CON", "PRN", "AUX", "NUL",
   "COM1", "COM2", "COM3", "COM4", "COM5", "COM6", "COM7", "COM8", "COM9",
   "LPT1", "LPT2", "LPT3", "LPT4", "LPT5", "LPT6", "LPT7", "LPT8", "LPT9"]

/-- JS `String.prototype.toUpperCase`. -/
def jsUpper (s : String) : String :=
  String.mk (s.data.map Char.toUpper)

/-- `RESERVED_NAMES.test(s)`: the case-insensitive anchored regex matches
exactly when the uppercased string is one of the alternatives (no `g`
flag, so this regex keeps no state). -/
def reservedTest (s : String) : Bool :=
  RESERVED_NAMES_LIST.contains (jsUpper s)

/-- Result object of `validateName`. -/
structure ValidationResult where
  valid : Bool
  error : Option String
deriving DecidableEq, Repr

/-- `ChatRenameHandler.validateName(newName, treeRoots, excludeUuid)`
(ChatTreeView.js lines 1144-1179), with the persistent
`INVALID_CHARS.lastIndex` of the handler threaded explicitly: a freshly
constructed handler starts at 0, and each reached `test()` call updates it
because the regex carries the `g` flag.  `MAX_FILENAME_LENGTH` is 255. -/
def validateName (lastIndex : Nat) (newName : String) (treeRoots : List PTree)
    (excludeUuid : Option String) : ValidationResult × Nat :=
  if (jsTrim newName).length = 0 then
    (⟨false, some "Chat name cannot be empty"⟩, lastIndex)
  else if (jsTrim newName).length > 255 then
    (⟨false, some "Name too long (max 255 characters)"⟩, lastIndex)
  else
    match regexTestG (jsTrim newName) lastIndex with
    | (true, li2) =>
      (⟨false, some "Name contains invalid characters: < > : \" / \\ | ? *"⟩, li2)
    | (false, li2) =>
      if reservedTest (jsTrim newName) then
        (⟨false, some "Name is reserved by the system"⟩, li2)
      else if hasDuplicateName (jsTrim newName) treeRoots excludeUuid then
        (⟨false, some "A chat with this name already exists"⟩, li2)
      else
        (⟨true, none⟩, li2)

/-- All nodes of a forest given as a root list, in preorder. -/
def allNodes (roots : List PTree) : List PTree :=
  (roots.map PTree.subtreeNodes).flatten

/-- Spec-side duplicate condition, following the claim's words: some node
of the forest other than the excluded one bears exactly the proposed
name. -/
def specDuplicate (newName : String) (roots : List PTree) (ex : Option String) : Bool :=
  (allNodes roots).any (fun t =>
    (match ex with | none => true | some e => t.id != e) && (t.name == newName))

mutual
theorem checkNode_eq (nm : String) (ex : Option String) : ∀ t : PTree,
    checkNodeForDuplicate nm ex t = t.subtreeNodes.any (fun x =>
      (match ex with | none => true | some e => x.id != e) && (x.name == nm))
  | .node i n cs => by
    simp [checkNodeForDuplicate, PTree.subtreeNodes, List.any_cons,
      checkForest_eq nm ex cs, PTree.id, PTree.name]
theorem checkForest_eq (nm : String) (ex : Option String) : ∀ f : PForest,
    checkForestForDuplicate nm ex f = f.subtreeNodesF.any (fun x =>
      (match ex with | none => true | some e => x.id != e) && (x.name == nm))
  | .nil => by
    simp [checkForestForDuplicate, PForest.subtreeNodesF]
  | .cons t f => by
    simp [checkForestForDuplicate, PForest.subtreeNodesF, List.any_append,
      checkNode_eq nm ex t, checkForest_eq nm ex f]
end

lemma any_allNodes (p : PTree → Bool) : ∀ roots : List PTree,
    (allNodes roots).any p = roots.any (fun r => r.subtreeNodes.any p)
  | [] => rfl
  | r :: rs => by
    unfold allNodes
    simp only [List.map_cons, List.flatten_cons, List.any_append, List.any_cons]
    rw [show ((rs.map PTree.subtreeNodes).flatten).any p =
      rs.any (fun r => r.subtreeNodes.any p) from any_allNodes p rs]

lemma hasDuplicateName_eq_spec (nm : String) (roots : List PTree) (ex : Option String) :
    hasDuplicateName nm roots ex = specDuplicate nm roots ex := by
  unfold hasDuplicateName specDuplicate
  rw [any_allNodes]
  simp only [checkNode_eq nm ex]

lemma string_length_zero_iff (t : String) : t.length = 0 ↔ t = "" := by
  constructor
  · intro h
    cases t with
    | mk data =>
      have hd : data = [] := List.length_eq_zero.1 h
      rw [hd]
  · intro h
    rw [h]
    rfl

lemma regexTestG_fst (s : String) (li : Nat) :
    (regexTestG s li).1 = (s.data.drop li).any (fun c => INVALID_CHARS_SET.contains c) := by
  have h2 : ((s.data.drop li).findIdx? (fun c => INVALID_CHARS_SET.contains c)).isSome =
      (s.data.drop li).any (fun c => INVALID_CHARS_SET.contains c) := List.findIdx?_isSome
  unfold regexTestG
  cases hf : (s.data.drop li).findIdx? (fun c => INVALID_CHARS_SET.contains c) with
  | none =>
    rw [hf] at h2
    simpa using h2
  | some i =>
    rw [hf] at h2
    simpa using h2

/-- Claim C6 (amended): on a freshly-constructed handler — the
forbidden-character regex at its initial state 0 — `validateName` succeeds
exactly when the proposed name is non-empty after trimming, its trimmed
length is at most 255, it contains no character of the forbidden set
`< > : " / \ | ? *`, it is not a reserved system name, and no node of the
forest other than the excluded one bears exactly the trimmed name; every
failure carries a non-empty human-readable reason, and the embedding is a
pure function (no I/O).  The amendment restricts the claim to the initial
regex state, which the stateful counterexample below shows to be
necessary: the global-flag regex keeps state across invocations of the
same handler. -/
theorem validateName_fresh_spec (newName : String) (roots : List PTree) (ex : Option String) :
    ((validateName 0 newName roots ex).1.valid = true ↔
      (jsTrim newName ≠ "" ∧ (jsTrim newName).length ≤ 255 ∧
       (jsTrim newName).data.any (fun c => INVALID_CHARS_SET.contains c) = false ∧
       reservedTest (jsTrim newName) = false ∧
       specDuplicate (jsTrim newName) roots ex = false)) ∧
    ((validateName 0 newName roots ex).1.valid = false →
      ∃ msg, (validateName 0 newName roots ex).1.error = some msg ∧ msg ≠ "") := by
  have hne := string_length_zero_iff (jsTrim newName)
  by_cases h1 : (jsTrim newName).length = 0
  · have hval : validateName 0 newName roots ex =
        (⟨false, some "Chat name cannot be empty"⟩, 0) := by
      simp [validateName, h1]
    rw [hval]
    constructor
    · constructor
      · intro hcon
        simp at hcon
      · rintro ⟨hcon, -⟩
        exact absurd (hne.1 h1) hcon
    · intro hv
      exact ⟨"Chat name cannot be empty", rfl, by decide⟩
  · by_cases h2 : (jsTrim newName).length > 255
    · have hval : validateName 0 newName roots ex =
          (⟨false, some "Name too long (max 255 characters)"⟩, 0) := by
        simp [validateName, h1, h2]
      rw [hval]
      refine ⟨⟨fun hcon => by simp at hcon, ?_⟩, fun hv => ⟨_, rfl, by decide⟩⟩
      rintro ⟨-, hle, -⟩
      omega
    · have hfst := regexTestG_fst (jsTrim newName) 0
      rw [List.drop_zero] at hfst
      rcases hr : regexTestG (jsTrim newName) 0 with ⟨b, li2⟩
      rw [hr] at hfst
      cases b with
      | true =>
        have hval : validateName 0 newName roots ex =
            (⟨false, some "Name contains invalid characters: < > : \" / \\ | ? *"⟩, li2) := by
          simp [validateName, h1, h2, hr]
        rw [hval]
        refine ⟨⟨fun hcon => by simp at hcon, ?_⟩, fun hv => ⟨_, rfl, by decide⟩⟩
        rintro ⟨-, -, hanyf, -, -⟩
        rw [hanyf] at hfst
        simp at hfst
      | false =>
        by_cases h4 : reservedTest (jsTrim newName) = true
        · have hval : validateName 0 newName roots ex =
              (⟨false, some "Name is reserved by the system"⟩, li2) := by
            simp [validateName, h1, h2, hr, h4]
          rw [hval]
          refine ⟨⟨fun hcon => by simp at hcon, ?_⟩, fun hv => ⟨_, rfl, by decide⟩⟩
          rintro ⟨-, -, -, hres, -⟩
          rw [h4] at hres
          simp at hres
        · by_cases h5 : hasDuplicateName (jsTrim newName) roots ex = true
          · have hval : validateName 0 newName roots ex =
                (⟨false, some "A chat with this name already exists"⟩, li2) := by
              simp [validateName, h1, h2, hr, h4, h5]
            rw [hval]
            refine ⟨⟨fun hcon => by simp at hcon, ?_⟩, fun hv => ⟨_, rfl, by decide⟩⟩
            rintro ⟨-, -, -, -, hdup⟩
            rw [hasDuplicateName_eq_spec] at h5
            rw [h5] at hdup
            simp at hdup
          · have hval : validateName 0 newName roots ex = (⟨true, none⟩, li2) := by
              simp [validateName, h1, h2, hr, h4, h5]
            rw [hval]
            constructor
            · constructor
              · intro hv2
                refine ⟨fun hcon => h1 (hne.2 hcon), by omega, ?_, ?_, ?_⟩
                · simpa using hfst.symm
                · simpa using h4
                · rw [← hasDuplicateName_eq_spec]
                  simpa using h5
              · intro hv2
                rfl
            · intro hv
              simp at hv

/-- Claim C6 counterexample: the claim as stated quantifies over every
proposed name, forest and excluded identifier and demands rejection of any
name containing a forbidden character, but `validateName` is a method of a
handler whose global-flag regex keeps its `lastIndex` between calls: after
one invocation with the name `x:y` (rejected, `lastIndex` now 2), a second
invocation with the very same arguments accepts the name even though it
contains the forbidden character `:`. -/
theorem validateName_stateful_counterexample :
    ("x:y".data.any (fun c => INVALID_CHARS_SET.contains c) = true) ∧
    (validateName 0 "x:y" [] none).1.valid = false ∧
    (validateName (validateName 0 "x:y" [] none).2 "x:y" [] none).1.valid = true := by
  decide

/-- Claim C10: the specification is right and the code has a bug.
`validateName` is not safe to invoke repeatedly: on a freshly-constructed
handler, validating the name `a<b` (which contains the forbidden character
`<`) is rejected, but the identical second invocation on the same handler
returns success, because `INVALID_CHARS` is created with the `g` flag and
`RegExp.prototype.test` resumes from the persistent `lastIndex` (here 2,
past the `<`), failing to find a match and resetting.  Two successive
invocations with identical arguments thus return different results. -/
theorem validateName_regex_state_bug :
    ("a<b".data.any (fun c => INVALID_CHARS_SET.contains c) = true) ∧
    (validateName 0 "a<b" [] none).1.valid = false ∧
    (validateName (validateName 0 "a<b" [] none).2 "a<b" [] none).1.valid = true ∧
    (validateName 0 "a<b" [] none).1 ≠
      (validateName (validateName 0 "a<b" [] none).2 "a<b" [] none).1 := by
  decide

/-- Input of `StorageRebuilder.buildGraphLegacy` after `hydrateChatMetadata`:
the cleaned chat name and the optional `uuid` / `parent_uuid` of the
metadata block (`none` embeds a missing field, `some ""` an empty one). -/
structure LChat where
  cleanName : String
  meta_uuid : Option String
  meta_parent_uuid : Option String
deriving DecidableEq, Repr

/-- Internal node of the legacy graph (id, display name, declared
parent id). -/
structure LNode where
  id : String
  name : String
  parentId : Option String
deriving DecidableEq, Repr

/-- `Map.set` for an insertion-ordered association list: overwriting an
existing key keeps its original position, a new key is appended. -/
def mapSet {α : Type} (m : List (String × α)) (k : String) (v : α) : List (String × α) :=
  if m.any (fun e => e.1 == k) then
    m.map (fun e => if e.1 == k then (k, v) else e)
  else
    m ++ [(k, v)]

/-- `Map.has` for an insertion-ordered association list. -/
def containsKey {α : Type} (m : List (String × α)) (k : String) : Bool :=
  m.any (fun e => e.1 == k)

/-- `const uuid = c.metadata.uuid || legacy_ + c.cleanName`
(StorageRebuilder.js line 903): a missing or empty (falsy) uuid is
replaced by the fallback identifier derived from the chat name. -/
def legacyUuid (c : LChat) : String :=
  match c.meta_uuid with
  | some u => if u = "" then "legacy_" ++ c.cleanName else u
  | none => "legacy_" ++ c.cleanName

/-- Pass 1 of `StorageRebuilder.buildGraphLegacy` (lines 897-914): one node
per chat, keyed by the real or substituted uuid; no input is ever
rejected. -/
def buildNodeMapLegacy (chats : List LChat) : List (String × LNode) :=
  chats.foldl
    (fun m c => mapSet m (legacyUuid c) ⟨legacyUuid c, c.cleanName, c.meta_parent_uuid⟩) []

/-- Pass 2 of `buildGraphLegacy` (lines 916-926): a node becomes a root
unless its `parentId` is truthy and resolves in the node map (the
child-array mutation is the complement of this partition and plays no role
in the claim). -/
def legacyRoots (m : List (String × LNode)) : List LNode :=
  (m.map (fun e => e.2)).filter (fun n =>
    match n.parentId with
    | some p => !((p != "") && containsKey m p)
    | none => true)

/-- `StorageRebuilder.buildGraphLegacy(chats)` (lines 897-930): the node
map and the root list. -/
def buildGraphLegacy (chats : List LChat) : List (String × LNode) × List LNode :=
  (buildNodeMapLegacy chats, legacyRoots (buildNodeMapLegacy chats))

/-- Key map of `ChatTreeView.buildNodeMapFromTree` (ChatTreeView.js lines
226-261): `processNode` inserts every node of every tree, in preorder,
into `this.nodeMap` keyed by its uuid — with no validation of the uuid. -/
def buildNodeMapFromTree (treeArray : List PTree) : List (String × NodeEntry) :=
  ((treeArray.map PTree.subtreeNodes).flatten).foldl
    (fun m t => mapSet m t.id ⟨t.id, t.name⟩) []

/-- Claim C9 counterexample: a record with a missing identifier does not
make forest construction fail with a `MalformedInput` error — no such
error exists anywhere in the source.  `buildGraphLegacy` builds a node for
it under the substituted identifier `legacy_<name>`, and likewise for a
record with an empty identifier. -/
theorem buildGraphLegacy_counterexample :
    (buildGraphLegacy [⟨"a", none, none⟩]).1 =
      [("legacy_a", ⟨"legacy_a", "a", none⟩)] ∧
    containsKey (buildGraphLegacy [⟨"a", none, none⟩]).1 "legacy_a" = true ∧
    (buildGraphLegacy [⟨"b", some "", none⟩]).1 =
      [("legacy_b", ⟨"legacy_b", "b", none⟩)] := by
  decide

lemma mapSet_containsKey {α : Type} (m : List (String × α)) (k : String) (v : α) :
    containsKey (mapSet m k v) k = true := by
  unfold containsKey mapSet
  by_cases h : m.any (fun e => e.1 == k) = true
  · rw [if_pos h]
    rw [List.any_eq_true] at h ⊢
    obtain ⟨e, he, hek⟩ := h
    refine ⟨(k, v), List.mem_map.2 ⟨e, he, ?_⟩, by simp⟩
    rw [if_pos hek]
  · rw [if_neg h]
    rw [List.any_eq_true]
    exact ⟨(k, v), List.mem_append_right _ (by simp), by simp⟩

lemma mapSet_containsKey_mono {α : Type} (m : List (String × α)) (k k2 : String) (v : α)
    (h : containsKey m k2 = true) : containsKey (mapSet m k v) k2 = true := by
  unfold containsKey mapSet at *
  rw [List.any_eq_true] at h
  obtain ⟨e, he, hek⟩ := h
  by_cases hk : m.any (fun e => e.1 == k) = true
  · rw [if_pos hk, List.any_eq_true]
    by_cases hek2 : (e.1 == k) = true
    · refine ⟨(k, v), List.mem_map.2 ⟨e, he, by rw [if_pos hek2]⟩, ?_⟩
      simp only [beq_iff_eq] at hek hek2 ⊢
      rw [← hek2, hek]
    · exact ⟨e, List.mem_map.2 ⟨e, he, by rw [if_neg hek2]⟩, hek⟩
  · rw [if_neg hk, List.any_eq_true]
    exact ⟨e, List.mem_append_left _ he, hek⟩

lemma foldl_mapSet_keys {α β : Type} (key : β → String) (val : β → α) :
    ∀ (l : List β) (m : List (String × α)),
      (∀ b ∈ l, containsKey (l.foldl (fun m b => mapSet m (key b) (val b)) m) (key b) = true) ∧
      (∀ k, containsKey m k = true →
        containsKey (l.foldl (fun m b => mapSet m (key b) (val b)) m) k = true)
  | [], m => ⟨by simp, fun k hk => by simpa using hk⟩
  | b0 :: l, m => by
    constructor
    · intro b hb
      rcases List.mem_cons.1 hb with rfl | hb
      · exact (foldl_mapSet_keys key val l _).2 _ (mapSet_containsKey m (key b) (val b))
      · exact (foldl_mapSet_keys key val l _).1 b hb
    · intro k hk
      exact (foldl_mapSet_keys key val l _).2 k (mapSet_containsKey_mono m (key b0) k _ hk)

/-- Claim C9 (amended): forest construction never fails on a record with a
missing or empty identifier — the source defines no `MalformedInput`
error.  `buildGraphLegacy` substitutes the fallback identifier
`legacy_<name>` for a falsy uuid and builds a node for every input chat
(every input's computed identifier is a key of the node map), and
`buildNodeMapFromTree` inserts a node for every tree node under whatever
uuid it carries, the empty string included. -/
theorem forestConstruction_total (chats : List LChat) (trees : List PTree) :
    (chats.countP (fun c => !(containsKey (buildGraphLegacy chats).1 (legacyUuid c))) = 0) ∧
    (((trees.map PTree.subtreeNodes).flatten).countP
      (fun t => !(containsKey (buildNodeMapFromTree trees) t.id)) = 0) := by
  constructor
  · rw [List.countP_eq_zero]
    intro c hc
    have := (foldl_mapSet_keys legacyUuid
      (fun c => (⟨legacyUuid c, c.cleanName, c.meta_parent_uuid⟩ : LNode)) chats []).1 c hc
    simp only [buildGraphLegacy, buildNodeMapLegacy]
    simp [this]
  · rw [List.countP_eq_zero]
    intro t ht
    have := (foldl_mapSet_keys PTree.id
      (fun t => (⟨t.id, t.name⟩ : NodeEntry)) ((trees.map PTree.subtreeNodes).flatten) []).1 t ht
    simp only [buildNodeMapFromTree]
    simp [this]

/-- Strip the `.jsonl` extension:
`chatData.file_name.replace(/\.jsonl$/g, '')` (anchored, so at most one
occurrence at the end is removed). -/
def stripJsonl (s : String) : String :=
  if ".jsonl".data.isSuffixOf s.data then String.mk (s.data.take (s.data.length - 6)) else s

/-- `isCheckpointChat(chatName)` (StorageRebuilder.js lines 15-17): the
name contains the substring `Checkpoint #` (the truthiness guard on the
name only affects the empty string, which contains no non-empty
substring). -/
def isCheckpointChat (chatName : String) : Bool :=
  jsIncludes chatName "Checkpoint #"

/-- Metadata block of the first entry of a chat file, as far as the
collection pass reads it (`uuid = ""` embeds a falsy uuid). -/
structure ChatMeta where
  uuid : String
  parent_uuid : Option String
  root_uuid : Option String
  branch_point : Option Nat
deriving DecidableEq, Repr

/-- One chat as the collection pass of `rebuildStorageFromChats` sees it:
the listed file name, the fetched metadata (`none` embeds a failed fetch,
an empty file, or a missing metadata block) and the listing's creation
date (`some 0` embeds a falsy date). -/
structure ChatStub where
  file_name : String
  meta : Option ChatMeta
  create_date : Option Nat
deriving DecidableEq, Repr

/-- One iteration of the metadata-collection loop of
`StorageRebuilder.rebuildStorageFromChats` (lines 275-333): checkpoint
chats are skipped before anything else; chats without a usable uuid are
skipped; an already-collected uuid is a duplicate and skipped; otherwise a
branch record is pushed and the uuid recorded in `uuidToChatName`.  The
accumulator is `(branchDataList, skippedCount, uuidToChatName)`. -/
def collectStep (now : Nat) (characterId : String)
    (acc : List BranchData × Nat × List (String × String)) (c : ChatStub) :
    List BranchData × Nat × List (String × String) :=
  let chatName := stripJsonl c.file_name
  if isCheckpointChat chatName then
    (acc.1, acc.2.1 + 1, acc.2.2)
  else
    match c.meta with
    | some m =>
      if m.uuid = "" then
        (acc.1, acc.2.1 + 1, acc.2.2)
      else if containsKeyS acc.2.2 m.uuid then
        (acc.1, acc.2.1 + 1, acc.2.2)
      else
        (acc.1 ++ [{ uuid := m.uuid,
                     parent_uuid :=
                       match m.parent_uuid with
                       | some p => if p = "" then none else some p
                       | none => none,
                     root_uuid :=
                       match m.root_uuid with
                       | some r => if r = "" then m.uuid else r
                       | none => m.uuid,
                     character_id := characterId,
                     chat_name := chatName,
                     branch_point :=
                       match m.branch_point with
                       | some bp => if bp = 0 then none else some bp
                       | none => none,
                     created_at :=
                       match c.create_date with
                       | some d => if d = 0 then now else d
                       | none => now }],
         acc.2.1, acc.2.2 ++ [(m.uuid, chatName)])
    | none => (acc.1, acc.2.1 + 1, acc.2.2)

/-- The collection pass of `rebuildStorageFromChats` over all chats (`now`
embeds `Date.now()`). -/
def collectBranchData (now : Nat) (characterId : String) (chats : List ChatStub) :
    List BranchData × Nat × List (String × String) :=
  chats.foldl (collectStep now characterId) ([], 0, [])

lemma collectStep_cases (now : Nat) (cid : String)
    (acc : List BranchData × Nat × List (String × String)) (c : ChatStub) :
    (collectStep now cid acc c = (acc.1, acc.2.1 + 1, acc.2.2)) ∨
    (isCheckpointChat (stripJsonl c.file_name) = false ∧
      ∃ b w, isCheckpointChat b.chat_name = false ∧
        collectStep now cid acc c = (acc.1 ++ [b], acc.2.1, acc.2.2 ++ [w])) := by
  unfold collectStep
  by_cases h1 : isCheckpointChat (stripJsonl c.file_name) = true
  · left
    simp [h1]
  · rw [Bool.not_eq_true] at h1
    cases hm : c.meta with
    | none =>
      left
      simp [h1, hm]
    | some m =>
      by_cases h2 : m.uuid = ""
      · left
        simp [h1, hm, h2]
      · by_cases h3 : containsKeyS acc.2.2 m.uuid = true
        · left
          simp [h1, hm, h2, h3]
        · right
          refine ⟨h1, ⟨m.uuid,
              (match m.parent_uuid with
               | some p => if p = "" then none else some p
               | none => none),
              (match m.root_uuid with
               | some r => if r = "" then m.uuid else r
               | none => m.uuid),
              cid, stripJsonl c.file_name,
              (match m.branch_point with
               | some bp => if bp = 0 then none else some bp
               | none => none),
              (match c.create_date with
               | some d => if d = 0 then now else d
               | none => now)⟩,
            (m.uuid, stripJsonl c.file_name), h1, ?_⟩
          simp [h1, hm, h2, h3]

lemma collect_go (now : Nat) (cid : String) :
    ∀ (l : List ChatStub) (acc : List BranchData × Nat × List (String × String)),
      (l.foldl (collectStep now cid) acc).1.countP (fun b => isCheckpointChat b.chat_name) =
        acc.1.countP (fun b => isCheckpointChat b.chat_name) ∧
      (l.foldl (collectStep now cid) acc).1.length + (l.foldl (collectStep now cid) acc).2.1 =
        acc.1.length + acc.2.1 + l.length ∧
      acc.2.1 + l.countP (fun c => isCheckpointChat (stripJsonl c.file_name)) ≤
        (l.foldl (collectStep now cid) acc).2.1
  | [], acc => by simp
  | c :: l, acc => by
    rw [List.foldl_cons]
    have hcc : (c :: l).countP (fun c => isCheckpointChat (stripJsonl c.file_name)) ≤
        l.countP (fun c => isCheckpointChat (stripJsonl c.file_name)) + 1 := by
      rw [List.countP_cons]
      split <;> omega
    rcases collectStep_cases now cid acc c with hstep | ⟨hck, b, w, hbck, hstep⟩
    · obtain ⟨ih1, ih2, ih3⟩ := collect_go now cid l (acc.1, acc.2.1 + 1, acc.2.2)
      rw [hstep]
      simp only at ih1 ih2 ih3
      refine ⟨ih1, ?_, ?_⟩
      · rw [List.length_cons]
        omega
      · omega
    · obtain ⟨ih1, ih2, ih3⟩ := collect_go now cid l (acc.1 ++ [b], acc.2.1, acc.2.2 ++ [w])
      rw [hstep]
      simp only at ih1 ih2 ih3
      rw [List.countP_append] at ih1
      simp only [List.countP_cons, List.countP_nil, hbck] at ih1
      rw [List.length_append] at ih2
      have hcc2 : (c :: l).countP (fun c => isCheckpointChat (stripJsonl c.file_name)) =
          l.countP (fun c => isCheckpointChat (stripJsonl c.file_name)) := by
        rw [List.countP_cons]
        simp [hck]
      refine ⟨?_, ?_, ?_⟩
      · rw [ih1]
        simp
      · rw [List.length_cons]
        simp at ih2
        omega
      · rw [hcc2]
        omega

/-- Claim C8 (amended): in the storage-rebuild bulk operation, every
record whose (cleaned) name matches the bookmark pattern `Checkpoint #` is
skipped before any metadata is read — no such record ever enters the
branch list that gets registered — and each one adds one to the skipped
count that is reported separately from the processed count (every chat is
accounted exactly once as either collected or skipped).  The
chat-migration bulk operation, by contrast, applies no checkpoint filter
and registers a checkpoint-named chat as a branch. -/
theorem rebuildSkipsCheckpoints (now : Nat) (cid : String) (chats : List ChatStub) :
    (collectBranchData now cid chats).1.countP (fun b => isCheckpointChat b.chat_name) = 0 ∧
    (collectBranchData now cid chats).1.length + (collectBranchData now cid chats).2.1 =
      chats.length ∧
    chats.countP (fun c => isCheckpointChat (stripJsonl c.file_name)) ≤
      (collectBranchData now cid chats).2.1 := by
  obtain ⟨h1, h2, h3⟩ := collect_go now cid chats ([], 0, [])
  refine ⟨by simpa using h1, by simpa using h2, by simpa using h3⟩

/-- Metadata block as `ChatMigrator` reads it (every field may be missing
or falsy). -/
structure MMeta where
  uuid : Option String
  parent_uuid : Option String
  root_uuid : Option String
deriving DecidableEq, Repr

/-- One chat as `ChatMigrator.migrateAllChats` sees it: the listed file
name, the fetched full data's metadata (`none` embeds missing or invalid
full data), the listing's creation date, and the outcome of the
`/api/chats/save` call for this chat. -/
structure MChat where
  file_name : String
  data : Option MMeta
  create_date : Option Nat
  saveOk : Bool
deriving DecidableEq, Repr

/-- JS truthiness of an optional string (missing or empty is falsy). -/
def optFalsy : Option String → Bool
  | none => true
  | some s => s == ""

/-- `ChatMigrator.chatNeedsMigration` (part_000 lines 328-346) on the same
fetched data the migration step sees: missing data, a falsy uuid or a
falsy root uuid require migration. -/
def chatNeedsMigration (c : MChat) : Bool :=
  match c.data with
  | none => true
  | some m => optFalsy m.uuid || optFalsy m.root_uuid

/-- The body of the per-chat loop of `ChatMigrator.migrateAllChats`
(part_000 lines 209-288): the branch registered with the plugin (if any)
and the success and error increments.  `fresh` is the uuid `uuidv4()`
would mint for this chat; fetches are embedded through `c.data`, the save
outcome through `c.saveOk`, and `registerBranchWithPlugin` is taken to
succeed.  No checkpoint filter appears anywhere in this loop. -/
def migrateChatStep (now : Nat) (cid : String) (fresh : String) (c : MChat) :
    Option BranchData × Nat × Nat :=
  let chatName := stripJsonl c.file_name
  if chatNeedsMigration c then
    match c.data with
    | some m =>
      let uuid := match m.uuid with | some u => if u = "" then fresh else u | none => fresh
      let rootUuid :=
        match m.root_uuid with | some r => if r = "" then uuid else r | none => uuid
      if c.saveOk then
        (some { uuid := uuid,
                parent_uuid :=
                  match m.parent_uuid with
                  | some p => if p = "" then none else some p
                  | none => none,
                root_uuid := rootUuid,
                character_id := cid,
                chat_name := chatName,
                branch_point := none,
                created_at :=
                  match c.create_date with
                  | some d => if d = 0 then now else d
                  | none => now }, 1, 0)
      else
        (none, 0, 1)
    | none => (none, 0, 1)
  else
    match c.data with
    | some m =>
      match m.uuid with
      | some u =>
        if u = "" then (none, 0, 0)
        else
          (some { uuid := u,
                  parent_uuid :=
                    match m.parent_uuid with
                    | some p => if p = "" then none else some p
                    | none => none,
                  root_uuid :=
                    match m.root_uuid with
                    | some r => if r = "" then u else r
                    | none => u,
                  character_id := cid,
                  chat_name := chatName,
                  branch_point := none,
                  created_at :=
                    match c.create_date with
                    | some d => if d = 0 then now else d
                    | none => now }, 0, 0)
      | none => (none, 0, 0)
    | none => (none, 0, 0)

/-- `ChatMigrator.migrateAllChats` over the whole chat list, accumulating
the registered branches and the success and error counts (`freshAt i` is
the uuid minted for the chat at position `i`; the chunking of the loop
does not change the per-chat processing order). -/
def migrateAllChats (now : Nat) (cid : String) (freshAt : Nat → String)
    (chats : List MChat) : List BranchData × Nat × Nat :=
  (((List.range chats.length).zip chats).foldl (fun acc ic =>
    match migrateChatStep now cid (freshAt ic.1) ic.2 with
    | (some b, s, e) => (acc.1 ++ [b], acc.2.1 + s, acc.2.2 + e)
    | (none, s, e) => (acc.1, acc.2.1 + s, acc.2.2 + e)) ([], 0, 0))

/-- Claim C8 counterexample: the claim covers every bulk operation, but
the chat-migration bulk operation applies no checkpoint filter: migrating
the single chat `Checkpoint #2.jsonl` (no uuid yet, save succeeding) mints
a uuid for it and registers it with the plugin as a branch, rather than
skipping it. -/
theorem migrateAllChats_registers_checkpoints :
    isCheckpointChat (stripJsonl "Checkpoint #2.jsonl") = true ∧
    (migrateAllChats 9 "char" (fun _ => "u1")
      [⟨"Checkpoint #2.jsonl", some ⟨none, none, none⟩, some 7, true⟩]).1 =
      [⟨"u1", none, "u1", "char", "Checkpoint #2", none, 7⟩] ∧
    (migrateAllChats 9 "char" (fun _ => "u1")
      [⟨"Checkpoint #2.jsonl", some ⟨none, none, none⟩, some 7, true⟩]).2.1 = 1 := by
  decide
